import Mathlib

/-!
Verification of the text-to-speech highlight engine (markdown stripper with
position map, chunker, playback state machine, sequential DOM word search,
editor highlight clamping).  The TypeScript sources are embedded shallowly:
strings become `List Char`, indices become `Nat` (with `Int` where JavaScript
arithmetic can go negative), and the scanning loops become fuel-based or
well-founded recursive functions mirroring the source control flow.
-/

namespace TTS

/-- JavaScript whitespace class `\s` (ASCII part; the repository processes
markdown text).  Used by `trim`, `trimStart` and the `\s` of the regexes. -/
def jsIsSpace (c : Char) : Bool :=
  c = ' ' || c = '\t' || c = '\n' || c = '\r' || c = '\x0b' || c = '\x0c'

/-- JavaScript `s.substring(a, b)` for `a ≤ b` (both clamped to the length,
exactly as `drop`/`take` clamp). -/
def sub (s : List Char) (a b : Nat) : List Char := (s.drop a).take (b - a)

/-- JavaScript `s.substring(a)`. -/
def subFrom (s : List Char) (a : Nat) : List Char := s.drop a

/-- JavaScript `s.trimStart()`. -/
def trimStartJS (s : List Char) : List Char := s.dropWhile jsIsSpace

/-- JavaScript `s.trimEnd()`. -/
def trimEndJS (s : List Char) : List Char := (s.reverse.dropWhile jsIsSpace).reverse

/-- JavaScript `s.trim()`. -/
def trimJS (s : List Char) : List Char := trimEndJS (trimStartJS s)

/-- Occurrence test: `pat` occurs in `s` at index `k`. -/
def occursAt (s pat : List Char) (k : Nat) : Bool := pat.isPrefixOf (s.drop k)

/-- Scan helper for `firstOccFrom`: first index `≥ k` (in the coordinates of
the original list of which `s` is the suffix starting at `k`) where `pat`
occurs. -/
def firstOccAux (pat : List Char) (s : List Char) (k : Nat) : Option Nat :=
  match s with
  | [] => none
  | _ :: rest => if pat.isPrefixOf s then some k else firstOccAux pat rest (k + 1)

/-- JavaScript `s.indexOf(pat, start)` for a non-empty `pat`, as an `Option`
(`none` for `-1`). -/
def firstOccFrom (s pat : List Char) (start : Nat) : Option Nat :=
  firstOccAux pat (s.drop start) start

/-- Scan helper for `lastOcc`. -/
def lastOccAux (pat : List Char) (s : List Char) (k : Nat) : Option Nat :=
  match s with
  | [] => none
  | _ :: rest =>
    match lastOccAux pat rest (k + 1) with
    | some j => some j
    | none => if pat.isPrefixOf s then some k else none

/-- JavaScript `s.lastIndexOf(pat)` for a non-empty `pat`, as an `Option`. -/
def lastOcc (s pat : List Char) : Option Nat := lastOccAux pat s 0

/-- End of the run of characters satisfying `p` that starts at `i`
(the TypeScript `while (j < len && p(raw[j])) j++` pattern). -/
def runEndP (s : List Char) (i : Nat) (p : Char → Bool) : Nat :=
  i + ((s.drop i).takeWhile p).length

/-- JavaScript `s[i] === c` including the out-of-bounds behaviour
(`undefined` compares unequal to every character). -/
def atC (s : List Char) (i : Nat) (c : Char) : Bool := s.get? i = some c

/-- The backtick character (code point 96), named to keep the source free of
a literal backtick. -/
def backquote : Char := Char.ofNat 96

theorem firstOccAux_ge (pat : List Char) :
    ∀ (s : List Char) (k j : Nat), firstOccAux pat s k = some j → k ≤ j := by
  intro s
  induction s with
  | nil => intro k j h; simp [firstOccAux] at h
  | cons c rest ih =>
    intro k j h
    rw [firstOccAux] at h
    split at h
    · cases h; omega
    · have := ih (k + 1) j h
      omega

theorem firstOccFrom_ge (s pat : List Char) (start j : Nat)
    (h : firstOccFrom s pat start = some j) : start ≤ j :=
  firstOccAux_ge pat (s.drop start) start j h

theorem lastOccAux_ge (pat : List Char) :
    ∀ (s : List Char) (k j : Nat), lastOccAux pat s k = some j → k ≤ j := by
  intro s
  induction s with
  | nil => intro k j h; simp [lastOccAux] at h
  | cons c rest ih =>
    intro k j h
    rw [lastOccAux] at h
    split at h
    next j' hj' =>
      have := ih (k + 1) j' hj'
      cases h
      omega
    next =>
      split at h
      · cases h; omega
      · cases h

theorem isPrefixOf_nil_false (pat : List Char) (hne : pat ≠ []) :
    pat.isPrefixOf ([] : List Char) = false := by
  cases pat with
  | nil => exact absurd rfl hne
  | cons a l => rfl

theorem lastOccAux_none (pat : List Char) (hne : pat ≠ []) :
    ∀ (s : List Char) (k : Nat), lastOccAux pat s k = none →
      ∀ m, pat.isPrefixOf (s.drop m) = false := by
  intro s
  induction s with
  | nil =>
    intro k _ m
    simp only [List.drop_nil]
    exact isPrefixOf_nil_false pat hne
  | cons c rest ih =>
    intro k h m
    rw [lastOccAux] at h
    cases hj : lastOccAux pat rest (k + 1) with
    | some j2 => rw [hj] at h; cases h
    | none =>
      rw [hj] at h
      have hpre : pat.isPrefixOf (c :: rest) = false := by
        by_contra hc
        simp only [Bool.not_eq_false] at hc
        rw [if_pos hc] at h
        cases h
      match m with
      | 0 => simpa using hpre
      | m + 1 => exact ih (k + 1) hj m

theorem lastOccAux_occurs (pat : List Char) :
    ∀ (s : List Char) (k j : Nat), lastOccAux pat s k = some j →
      pat.isPrefixOf (s.drop (j - k)) = true := by
  intro s
  induction s with
  | nil => intro k j h; simp [lastOccAux] at h
  | cons c rest ih =>
    intro k j h
    rw [lastOccAux] at h
    cases hj : lastOccAux pat rest (k + 1) with
    | some j2 =>
      rw [hj] at h
      simp only [Option.some.injEq] at h
      subst h
      have hge := lastOccAux_ge pat rest (k + 1) j2 hj
      have hih := ih (k + 1) j2 hj
      have hdrop : (c :: rest).drop (j2 - k) = rest.drop (j2 - (k + 1)) := by
        have heq : j2 - k = (j2 - (k + 1)) + 1 := by omega
        rw [heq, List.drop_succ_cons]
      rwa [hdrop]
    | none =>
      rw [hj] at h
      by_cases hpre : pat.isPrefixOf (c :: rest) = true
      · rw [if_pos hpre] at h
        simp only [Option.some.injEq] at h
        subst h
        simpa using hpre
      · rw [if_neg hpre] at h
        cases h

theorem lastOccAux_last (pat : List Char) (hne : pat ≠ []) :
    ∀ (s : List Char) (k j : Nat), lastOccAux pat s k = some j →
      ∀ m, j - k < m → pat.isPrefixOf (s.drop m) = false := by
  intro s
  induction s with
  | nil => intro k j h; simp [lastOccAux] at h
  | cons c rest ih =>
    intro k j h m hm
    rw [lastOccAux] at h
    cases hj : lastOccAux pat rest (k + 1) with
    | some j2 =>
      rw [hj] at h
      simp only [Option.some.injEq] at h
      subst h
      have hge := lastOccAux_ge pat rest (k + 1) j2 hj
      match m with
      | 0 => omega
      | m + 1 =>
        rw [List.drop_succ_cons]
        exact ih (k + 1) j2 hj m (by omega)
    | none =>
      rw [hj] at h
      by_cases hpre : pat.isPrefixOf (c :: rest) = true
      · rw [if_pos hpre] at h
        simp only [Option.some.injEq] at h
        subst h
        match m with
        | 0 => omega
        | m + 1 =>
          rw [List.drop_succ_cons]
          exact lastOccAux_none pat hne rest (k + 1) hj m
      · rw [if_neg hpre] at h
        cases h

theorem lastOcc_occurs (s pat : List Char) (j : Nat) (h : lastOcc s pat = some j) :
    occursAt s pat j = true := by
  have := lastOccAux_occurs pat s 0 j h
  simpa [occursAt] using this

theorem lastOcc_last (s pat : List Char) (j : Nat) (hne : pat ≠ [])
    (h : lastOcc s pat = some j) : ∀ m, j < m → occursAt s pat m = false := by
  intro m hm
  have := lastOccAux_last pat hne s 0 j h m (by omega)
  simpa [occursAt] using this

theorem lastOcc_none (s pat : List Char) (hne : pat ≠ []) (h : lastOcc s pat = none) :
    ∀ m, occursAt s pat m = false := by
  intro m
  have := lastOccAux_none pat hne s 0 h m
  simpa [occursAt] using this

theorem occursAt_bound (s pat : List Char) (k : Nat) (hne : pat ≠ [])
    (h : occursAt s pat k = true) : k + pat.length ≤ s.length := by
  have hpre : pat <+: s.drop k := by
    rw [← List.isPrefixOf_iff_prefix]; exact h
  have hlen : pat.length ≤ (s.drop k).length := hpre.length_le
  rw [List.length_drop] at hlen
  have hk : k < s.length := by
    by_contra hk
    have : s.drop k = [] := List.drop_eq_nil_of_le (by omega)
    rw [this] at hpre
    exact hne (List.prefix_nil.mp hpre)
  omega

theorem occursAt_sub (s pat : List Char) (k : Nat) (h : occursAt s pat k = true) :
    sub s k (k + pat.length) = pat := by
  have hpre : pat <+: s.drop k := by
    rw [← List.isPrefixOf_iff_prefix]; exact h
  obtain ⟨t, ht⟩ := hpre
  simp [sub, ← ht]

/-! ### Markdown line/inline predicates (the regexes of `TextPreparer.stripMarkdown`) -/

def isDigitC (c : Char) : Bool := '0' ≤ c && c ≤ '9'

def isAlphaC (c : Char) : Bool := ('a' ≤ c && c ≤ 'z') || ('A' ≤ c && c ≤ 'Z')

def isAlnumC (c : Char) : Bool := isAlphaC c || isDigitC c

/-- Character class `[\s:|-]` of the table-separator regex. -/
def tableSepChar (c : Char) : Bool := jsIsSpace c || c = ':' || c = '|' || c = '-'

/-- Test `/^\|[\s:|-]+\|$/.test(line) && line.includes("-")`: a pipe, at least one
class character, a pipe, containing a dash. -/
def isTableSepLine (line : List Char) : Bool :=
  decide (3 ≤ line.length) &&
  line.head? = some '|' &&
  line.getLast? = some '|' &&
  (sub line 1 (line.length - 1)).all tableSepChar &&
  line.contains '-'

/-- Test `/^[-*_]{3,}$/.test(hrLine)`. -/
def isHrLine (line : List Char) : Bool :=
  decide (3 ≤ line.length) && line.all (fun c => c = '-' || c = '*' || c = '_')

/-- Test `/^\/?[a-zA-Z][a-zA-Z0-9]*(\s[^>]*)?\/?$/.test(tagContent)`.  After the
optional leading slash and the leading letter, the regex accepts a maximal
alphanumeric run followed by nothing, by a lone `/`, or by a whitespace
character and arbitrary text (`[^>]*` is unconstrained here because
`tagContent` never contains `>`). -/
def isHtmlTagContent (t : List Char) : Bool :=
  let u := match t with
    | '/' :: rest => rest
    | _ => t
  match u with
  | [] => false
  | c :: rest =>
    isAlphaC c &&
      (let r := rest.dropWhile isAlnumC
       r.isEmpty || r = ['/'] ||
         (match r.head? with
          | some c2 => jsIsSpace c2
          | none => false))

/-- Body of `TextPreparer.findClosingBracket`: depth-aware scan for the bracket
closing the one at the start position. -/
def fcbGo : List Char → Nat → Int → Option Nat
  | [], _, _ => none
  | c :: rest, i, depth =>
    if c = '[' then fcbGo rest (i + 1) (depth + 1)
    else if c = ']' then
      if depth - 1 = 0 then some i else fcbGo rest (i + 1) (depth - 1)
    else fcbGo rest (i + 1) depth

/-- Embeds `TextPreparer.findClosingBracket(text, openPos)`. -/
def findClosingBracket (text : List Char) (openPos : Nat) : Option Nat :=
  fcbGo (text.drop openPos) openPos 0

theorem fcbGo_ge : ∀ (s : List Char) (i : Nat) (d : Int) (j : Nat),
    fcbGo s i d = some j → i ≤ j := by
  intro s
  induction s with
  | nil => intro i d j h; simp [fcbGo] at h
  | cons c rest ih =>
    intro i d j h
    rw [fcbGo] at h
    split at h
    · have := ih (i + 1) (d + 1) j h; omega
    · split at h
      · split at h
        · cases h; omega
        · have := ih (i + 1) (d - 1) j h; omega
      · have := ih (i + 1) d j h; omega

theorem findClosingBracket_ge (text : List Char) (openPos j : Nat)
    (h : findClosingBracket text openPos = some j) : openPos ≤ j :=
  fcbGo_ge (text.drop openPos) openPos 0 j h

/-- Index just past the current line (TS `nlIdx === -1 ? len : nlIdx + 1`). -/
def nextLineIdx (raw : List Char) (i : Nat) : Nat :=
  match firstOccFrom raw ['\n'] i with
  | none => raw.length
  | some nl => nl + 1

/-- Index of the current line's end (TS `nlIdx === -1 ? len : nlIdx`). -/
def lineEndIdx (raw : List Char) (i : Nat) : Nat :=
  match firstOccFrom raw ['\n'] i with
  | none => raw.length
  | some nl => nl

theorem nextLineIdx_gt (raw : List Char) (i : Nat) (h : i < raw.length) :
    i < nextLineIdx raw i := by
  rw [nextLineIdx]
  cases hnl : firstOccFrom raw ['\n'] i with
  | none => simpa using h
  | some nl =>
    have := firstOccFrom_ge raw ['\n'] i nl hnl
    simp only []
    omega

/-- The fence-skipping inner loop of the fenced-code-block rule: advances past
lines until one starts (after `trimStart`) with three fence characters, or
input ends. -/
def skipFence (raw : List Char) (fence : Char) (i : Nat) : Nat :=
  if _h : i < raw.length then
    match hnl : firstOccFrom raw ['\n'] i with
    | none => raw.length
    | some nl =>
      if [fence, fence, fence].isPrefixOf (trimStartJS (sub raw i nl)) then nl + 1
      else skipFence raw fence (nl + 1)
  else i
termination_by raw.length - i
decreasing_by
  have := firstOccFrom_ge raw ['\n'] i nl hnl
  omega

theorem skipFence_ge_aux (raw : List Char) (fence : Char) :
    ∀ (n i : Nat), raw.length - i ≤ n → i ≤ skipFence raw fence i := by
  intro n
  induction n with
  | zero =>
    intro i hn
    rw [skipFence]
    split
    next hlt => omega
    next => omega
  | succ n ih =>
    intro i _
    rw [skipFence]
    split
    next hlt =>
      split
      next => omega
      next nl hnl =>
        have hge := firstOccFrom_ge raw ['\n'] i nl hnl
        split
        · omega
        · have := ih (nl + 1) (by omega)
          omega
    next => omega

theorem skipFence_ge (raw : List Char) (fence : Char) (i : Nat) :
    i ≤ skipFence raw fence i :=
  skipFence_ge_aux raw fence (raw.length - i) i le_rfl

/-- JavaScript `line.replace(/\r$/, "")`. -/
def stripCr (l : List Char) : List Char :=
  if l.getLast? = some '\r' then l.dropLast else l

/-- The frontmatter loop (entered only when the text starts with `---\n` or
`---\r\n`): consumes lines up to the closing lone `---`; `none` when the
closing delimiter is missing (the TS loop then `break`s with empty output). -/
def skipFrontmatterGo (raw : List Char) (i : Nat) : Option Nat :=
  if _h : i < raw.length then
    match hnl : firstOccFrom raw ['\n'] i with
    | none => none
    | some nl =>
      -- TS: `const line = raw.substring(i, nlIdx).replace(/\r$/, "")`
      if stripCr (sub raw i nl) = ['-', '-', '-'] then some (nl + 1)
      else skipFrontmatterGo raw (nl + 1)
  else some i
termination_by raw.length - i
decreasing_by
  have := firstOccFrom_ge raw ['\n'] i nl hnl
  omega

/-! ### The scanner state and `TextPreparer.stripMarkdown` -/

/-- Structure `PositionMapEntry` of `src/types.ts`. -/
structure PositionMapEntry where
  plain : Nat
  editor : Nat
deriving DecidableEq, Repr

/-- The mutable scan state of `stripMarkdown`: the emitted characters, the
position map, and the plain index (always the number of emitted characters). -/
structure StripState where
  out : List Char
  map : List PositionMapEntry
  plainIndex : Nat
deriving DecidableEq, Repr

/-- Embeds `TextPreparer.pushChar` followed by the `plainIndex++` that every call
site performs: appends the character and records an anchor exactly when the
running (editor − plain) delta changes. -/
def pushChar (st : StripState) (c : Char) (editorIndex : Nat) : StripState :=
  let map' :=
    match st.map.getLast? with
    | none => st.map ++ [⟨st.plainIndex, editorIndex⟩]
    | some last =>
      if (editorIndex : Int) - (last.editor : Int) ≠ (st.plainIndex : Int) - (last.plain : Int) then
        st.map ++ [⟨st.plainIndex, editorIndex⟩]
      else st.map
  ⟨st.out ++ [c], map', st.plainIndex + 1⟩

/-- A run of `pushChar` calls at consecutive editor offsets (the inline-code,
image-alt, link-text and wikilink-display loops). -/
def pushRun (st : StripState) (cs : List Char) (ed : Nat) : StripState :=
  match cs with
  | [] => st
  | c :: rest => pushRun (pushChar st c ed) rest (ed + 1)

/-- Outcome of one iteration of the `stripMarkdown` while-loop: `halt` for a
`break`, `next` for a `continue` with the updated position, line-start flag
and state. -/
inductive StepRes where
  | halt
  | next (i : Nat) (lineStart : Bool) (st : StripState)

/-- Image pattern `![alt](url)`: the `]` and `)` indices when it closes
(TS: `closeBracket !== -1 && raw[closeBracket+1] === "(" && closeParen !== -1`). -/
def imageSpan (raw : List Char) (i : Nat) : Option (Nat × Nat) :=
  match firstOccFrom raw [']'] (i + 2) with
  | none => none
  | some cb =>
    if atC raw (cb + 1) '(' then
      match firstOccFrom raw [')'] (cb + 2) with
      | none => none
      | some cp => some (cb, cp)
    else none

/-- Link pattern `[text](url)`: the closing-bracket (depth aware) and closing-paren indices
when the link pattern closes. -/
def linkSpan (raw : List Char) (i : Nat) : Option (Nat × Nat) :=
  match findClosingBracket raw i with
  | none => none
  | some cb =>
    if atC raw (cb + 1) '(' then
      match firstOccFrom raw [')'] (cb + 2) with
      | none => none
      | some cp => some (cb, cp)
    else none

/-- What one iteration of the `stripMarkdown` while-loop does, before the
state is touched: stop, or continue at a new index with at most one emission.
Only the table-pipe rule consults the current state (the last emitted
character), so it is its own constructor. -/
inductive Action where
  | halt
  | skip (i : Nat) (lineStart : Bool)
  | emit (i : Nat) (lineStart : Bool) (c : Char) (ed : Nat)
  | emitRun (i : Nat) (lineStart : Bool) (cs : List Char) (ed : Nat)
  | pipe (i : Nat) (ed : Nat)
deriving DecidableEq, Repr

/-- The start-of-line rules of the `stripMarkdown` loop (the TS
`if (lineStart) { ... }` block), in source order; `none` when no rule fires
and the iteration falls through to the inline rules. -/
def lineStartAction (raw : List Char) (i : Nat) : Option Action :=
  let ch := raw.getD i ' '
  -- table separator row
  if ch = '|' && isTableSepLine (trimJS (sub raw i (lineEndIdx raw i))) then
    some (.skip (nextLineIdx raw i) true)
  -- fenced code block (break when the opening fence line has no newline)
  else if (ch = backquote && atC raw (i+1) backquote && atC raw (i+2) backquote) ||
      (ch = '~' && atC raw (i+1) '~' && atC raw (i+2) '~') then
    match firstOccFrom raw ['\n'] i with
    | none => some .halt
    | some nl => some (.skip (skipFence raw ch (nl + 1)) true)
  -- heading prefix (`atC … ' '` includes the TS bounds check)
  else if ch = '#' && atC raw (runEndP raw i (fun c => c = '#')) ' ' then
    some (.skip (runEndP raw i (fun c => c = '#') + 1) false)
  -- block quote prefix
  else if ch = '>' then
    some (.skip (if atC raw (i+1) ' ' then i + 2 else i + 1) false)
  -- unordered list prefix
  else if (ch = '-' || ch = '*' || ch = '+') && atC raw (i+1) ' ' then
    some (.skip (i + 2) false)
  -- ordered list prefix
  else if isDigitC ch &&
      atC raw (runEndP raw i isDigitC) '.' && atC raw (runEndP raw i isDigitC + 1) ' ' then
    some (.skip (runEndP raw i isDigitC + 2) false)
  -- horizontal rule
  else if (ch = '-' || ch = '*' || ch = '_') &&
      atC raw (i+1) ch && atC raw (i+2) ch &&
      isHrLine (trimJS (sub raw i (lineEndIdx raw i))) then
    some (.skip (nextLineIdx raw i) true)
  else none

/-- The inline rules of the `stripMarkdown` loop, in source order, reached
when no start-of-line rule fired (with the line-start flag now cleared). -/
def inlineAction (raw : List Char) (eo i : Nat) : Action :=
  let ch := raw.getD i ' '
  -- newline becomes a space
  if ch = '\n' then
    .emit (i + 1) true ' ' (i + eo)
  -- carriage return dropped
  else if ch = '\r' then
    .skip (i + 1) false
  else
    -- inline code span (unterminated backtick falls through to the literal)
    match (if ch = backquote then firstOccFrom raw [backquote] (i + 1) else none) with
    | some e => .emitRun (e + 1) false (sub raw (i+1) e) (i + 1 + eo)
    | none =>
    -- image: keep the alt text at its original offsets
    match (if ch = '!' && atC raw (i+1) '[' then imageSpan raw i else none) with
    | some (cb, cp) => .emitRun (cp + 1) false (sub raw (i+2) cb) (i + 2 + eo)
    | none =>
    -- link: keep the text at its original offsets
    match (if ch = '[' then linkSpan raw i else none) with
    | some (cb, cp) => .emitRun (cp + 1) false (sub raw (i+1) cb) (i + 1 + eo)
    | none =>
    -- wikilink: keep the display segment at its original offsets
    match (if ch = '[' && atC raw (i+1) '[' then firstOccFrom raw [']', ']'] (i + 2) else none) with
    | some cw =>
      match firstOccFrom (sub raw (i+2) cw) ['|'] 0 with
      | some p => .emitRun (cw + 2) false (subFrom (sub raw (i+2) cw) (p + 1)) (i + 2 + p + 1 + eo)
      | none => .emitRun (cw + 2) false (sub raw (i+2) cw) (i + 2 + eo)
    | none =>
    -- emphasis markers: runs of * or _ of length ≤ 3 are dropped
    if (ch = '*' || ch = '_') && decide (runEndP raw i (fun c => c = ch) - i ≤ 3) then
      .skip (runEndP raw i (fun c => c = ch)) false
    -- strikethrough and highlight markers
    else if ch = '~' && atC raw (i+1) '~' then .skip (i + 2) false
    else if ch = '=' && atC raw (i+1) '=' then .skip (i + 2) false
    -- table cell pipe: at most one separating space, then skip spaces
    else if ch = '|' then
      .pipe (runEndP raw (i+1) (fun c => c = ' ')) (i + eo)
    else
    -- inline HTML tag
    match (if ch = '<' then firstOccFrom raw ['>'] (i + 1) else none) with
    | some ca =>
      if isHtmlTagContent (sub raw (i+1) ca) then .skip (ca + 1) false
      else .emit (i + 1) false ch (i + eo)
    -- regular character
    | none => .emit (i + 1) false ch (i + eo)

/-- One iteration of the `stripMarkdown` while-loop, before the state is
touched: the start-of-line rules are tried only under the `lineStart` flag
(the TS `if (lineStart) { lineStart = false; ... }` block); when none fires
the very same iteration falls through to the inline rules. -/
def stripAction (raw : List Char) (eo i : Nat) (lineStart : Bool) : Action :=
  match (if lineStart then lineStartAction raw i else none) with
  | some a => a
  | none => inlineAction raw eo i

/-- Apply an `Action` to the scan state.  The `pipe` rule emits one separating
space unless the output is empty or already ends in a space
(TS: `lastChar !== " " && lastChar !== ""`). -/
def applyAction (st : StripState) : Action → StepRes
  | .halt => .halt
  | .skip i ls => .next i ls st
  | .emit i ls c ed => .next i ls (pushChar st c ed)
  | .emitRun i ls cs ed => .next i ls (pushRun st cs ed)
  | .pipe i ed =>
    .next i false
      (match st.out.getLast? with
       | some lastChar => if lastChar ≠ ' ' then pushChar st ' ' ed else st
       | none => st)

/-- One iteration of the `stripMarkdown` while-loop: decide the rule, apply it
to the state. -/
def stripStep (raw : List Char) (eo i : Nat) (lineStart : Bool) (st : StripState) : StepRes :=
  applyAction st (stripAction raw eo i lineStart)

/-- The `stripMarkdown` while-loop.  `fuel` bounds the number of iterations;
every iteration strictly advances the scan index (`stripAction` only returns
indices beyond `i`), so the `raw.length + 1` supplied by `stripMarkdown`
never runs out. -/
def stripGo (raw : List Char) (eo : Nat) : Nat → Nat → Bool → StripState → StripState
  | 0, _, _, st => st
  | fuel + 1, i, lineStart, st =>
    if i < raw.length then
      match stripStep raw eo i lineStart st with
      | .halt => st
      | .next i' ls' st' => stripGo raw eo fuel i' ls' st'
    else st

/-- Scan index at which the main loop starts: after the frontmatter block if
the text opens one (TS `raw.startsWith("---\n") || raw.startsWith("---\r\n")`,
in which case the first newline of `raw` sits right after the dashes), `none`
when an opened frontmatter block never closes (the loop then yields nothing). -/
def frontmatterStart (raw : List Char) : Option Nat :=
  if ['-', '-', '-', '\n'].isPrefixOf raw then skipFrontmatterGo raw 4
  else if ['-', '-', '-', '\r', '\n'].isPrefixOf raw then skipFrontmatterGo raw 5
  else some 0

/-- Embeds `TextPreparer.stripMarkdown(raw, editorOffset)`, returning the trimmed
plain text and the position map. -/
def stripMarkdown (raw : List Char) (editorOffset : Nat) : List Char × List PositionMapEntry :=
  match frontmatterStart raw with
  | none => ([], [])
  | some i0 =>
    let stF := stripGo raw editorOffset (raw.length + 1) i0 true ⟨[], [], 0⟩
    (trimJS stF.out, stF.map)

/-! ### `TextPreparer.splitChunks` -/

/-- The sentence boundary `". "` searched for by the chunker. -/
def sentMark : List Char := ['.', ' ']

/-- The split-point selection of one chunker window (TS lines: lastIndexOf
`". "`, threshold `maxSize * 0.5`; lastIndexOf `" "`, threshold
`maxSize * 0.3`; hard cut).  For integer operands the JavaScript float
comparisons `x > maxSize * 0.5` and `x > maxSize * 0.3` coincide with the
exact rational comparisons `2 * x > maxSize` and `10 * x > 3 * maxSize`
(0.5 is exact in binary; the relative error of `0.3` and of the product is
below one ulp, far too small to cross an integer at any realistic size). -/
def pickSplitSpace (region : List Char) (maxSize offset : Nat) : Nat :=
  match lastOcc region [' '] with
  | some l => if 10 * l > 3 * maxSize then offset + l + 1 else offset + maxSize
  | none => offset + maxSize

/-- The split-point selection of one chunker window, first trying the sentence
boundary, then falling back to `pickSplitSpace` (the TS `splitAt === -1`
cascade). -/
def pickSplit (region : List Char) (maxSize offset : Nat) : Nat :=
  match lastOcc region sentMark with
  | some k =>
    if 2 * k > maxSize then offset + k + 2
    else pickSplitSpace region maxSize offset
  | none => pickSplitSpace region maxSize offset

/-- The chunking while-loop.  `fuel` bounds the iterations; for `1 ≤ maxSize`
every iteration strictly advances `offset`, so the `text.length + 1` supplied
by `splitChunks` never runs out (for `maxSize = 0` the TS loop would not
terminate at all). -/
def splitChunksGo (text : List Char) (maxSize : Nat) : Nat → Nat → List (List Char) × List Nat
  | 0, _ => ([], [])
  | fuel + 1, offset =>
    if offset < text.length then
      if text.length ≤ offset + maxSize then ([subFrom text offset], [offset])
      else
        let splitAt := pickSplit (sub text offset (min (offset + maxSize) text.length)) maxSize offset
        let rest := splitChunksGo text maxSize fuel splitAt
        (sub text offset splitAt :: rest.1, offset :: rest.2)
    else ([], [])

/-- Embeds `TextPreparer.splitChunks(text, maxSize)`: the chunks and their starting
plain-text offsets. -/
def splitChunks (text : List Char) (maxSize : Nat) : List (List Char) × List Nat :=
  if text.length ≤ maxSize then ([text], [0])
  else splitChunksGo text maxSize (text.length + 1) 0

/-! ### Position-map lookup (`lookupEditorOffset`, `toEditorRange`) -/

/-- Half-open range in editor (source) coordinates; the TS fields are named
`from`/`to` (`from` is a Lean keyword). -/
structure EditorRange where
  efrom : Int
  eto : Int
deriving DecidableEq, Repr

/-- The binary-search loop of `lookupEditorOffset`: invariant-preserving
search for the largest entry with `.plain ≤ plainIndex`.  `fuel` bounds the
iterations; `map.length` suffices since `hi - lo` strictly decreases. -/
def bsearchGo (map : List PositionMapEntry) (plainIndex : Int) : Nat → Nat → Nat → Nat
  | 0, lo, _ => lo
  | fuel + 1, lo, hi =>
    if lo < hi then
      let mid := (lo + hi + 1) / 2
      if ((map.getD mid ⟨0, 0⟩).plain : Int) ≤ plainIndex then bsearchGo map plainIndex fuel mid hi
      else bsearchGo map plainIndex fuel lo (mid - 1)
    else lo

/-- Embeds `TextPreparer.lookupEditorOffset(map, plainIndex)`.  The plain index is an
`Int` because `toEditorRange` passes `plainTo - 1`. -/
def lookupEditorOffset (map : List PositionMapEntry) (plainIndex : Int) : Option Int :=
  match map with
  | [] => none
  | e0 :: _ =>
    let hi := map.length - 1
    let last := map.getD hi ⟨0, 0⟩
    if plainIndex < (e0.plain : Int) then some (e0.editor : Int)
    else if (last.plain : Int) ≤ plainIndex then
      some ((last.editor : Int) + (plainIndex - (last.plain : Int)))
    else
      let entry := map.getD (bsearchGo map plainIndex map.length 0 hi) ⟨0, 0⟩
      some ((entry.editor : Int) + (plainIndex - (entry.plain : Int)))

/-- Embeds `TextPreparer.toEditorRange(map, plainFrom, plainTo)`. -/
def toEditorRange (map : List PositionMapEntry) (plainFrom plainTo : Int) : Option EditorRange :=
  if map.length = 0 then none
  else
    match lookupEditorOffset map plainFrom, lookupEditorOffset map (plainTo - 1) with
    | some f, some t => some ⟨f, t + 1⟩
    | _, _ => none

/-! ### `TextPreparer.prepare` -/

/-- Structure `PreparedText` of `src/types.ts`. -/
structure PreparedText where
  chunks : List (List Char)
  map : List PositionMapEntry
  chunkOffsets : List Nat
deriving DecidableEq, Repr

/-- Embeds `TextPreparer.prepare(raw, chunkSize, editorOffset)`. -/
def prepare (raw : List Char) (chunkSize : Nat) (editorOffset : Nat) : PreparedText :=
  let pm := stripMarkdown raw editorOffset
  if (trimJS pm.1).length = 0 then ⟨[], [], []⟩
  else
    let co := splitChunks pm.1 chunkSize
    ⟨co.1, pm.2, co.2⟩

/-! ### `ReadingHighlighter` sequential word search -/

namespace ReadingHighlighter

/-- Constant `SEARCH_BACKTRACK_CHARS` of `readingHighlighter.ts`. -/
def SEARCH_BACKTRACK_CHARS : Nat := 20

/-- The search-relevant state of a `ReadingHighlighter`: the sequential cursor
and the flattened text buffer of the indexed container (the DOM node list is
abstracted away — the claims below are about buffer positions). -/
structure State where
  searchOffset : Nat
  fullText : List Char
deriving DecidableEq, Repr

/-- The search core of `ReadingHighlighter.highlightWord`: forward search from
the cursor, one backtracked retry from `max(0, cursor − 20)` on a miss, cursor
advanced past a match.  Returns the matched buffer position (the DOM range
construction and highlight application consume it and do not affect the
search state). -/
def highlightWord (rh : State) (word : List Char) : Option Nat × State :=
  if rh.fullText.length = 0 || word.length = 0 then (none, rh)
  else
    match firstOccFrom rh.fullText word rh.searchOffset with
    | some idx => (some idx, { rh with searchOffset := idx + word.length })
    | none =>
      -- Nat subtraction is exactly the TS `Math.max(0, searchOffset - 20)`
      match firstOccFrom rh.fullText word (rh.searchOffset - SEARCH_BACKTRACK_CHARS) with
      | some idx => (some idx, { rh with searchOffset := idx + word.length })
      | none => (none, rh)

end ReadingHighlighter

/-! ### `PlaybackController` state machine -/

namespace PlaybackController

/-- Enum `PlaybackState` of `src/types.ts`. -/
inductive PlaybackState where
  | idle
  | playing
  | paused
deriving DecidableEq, Repr

/-- Side effects the controller performs on its collaborators (speech engine
calls, highlight clearing, emitted events), recorded in order. -/
inductive Eff where
  | engineCancel
  | engineSpeak (text : List Char)
  | enginePause
  | engineResume
  | clearHighlight
  | stateChange (s : PlaybackState)
  | emitEnd
  | scheduleHighlight (range : EditorRange) (word : List Char)
deriving DecidableEq, Repr

/-- The session-relevant fields of a `PlaybackController` (the DOM handles and
settings are abstracted into the effect trace). -/
structure Ctrl where
  state : PlaybackState
  prepared : Option PreparedText
  currentChunk : Nat
deriving DecidableEq, Repr

/-- Embeds `PlaybackController.stop()`: no-op from idle; otherwise cancel the engine,
clear highlights, go idle (emitting the state change), discard the session and
emit the end notification — in source order. -/
def stop (s : Ctrl) : Ctrl × List Eff :=
  if s.state = .idle then (s, [])
  else ({ s with state := .idle, prepared := none },
        [.engineCancel, .clearHighlight, .stateChange .idle, .emitEnd])

/-- Embeds `PlaybackController.speakCurrentChunk()`. -/
def speakCurrentChunk (s : Ctrl) : Ctrl × List Eff :=
  match s.prepared with
  | none => (s, [])
  | some p =>
    if p.chunks.length ≤ s.currentChunk then
      ({ s with state := .idle }, [.clearHighlight, .stateChange .idle, .emitEnd])
    else (s, [.engineSpeak (p.chunks.getD s.currentChunk [])])

/-- Embeds `PlaybackController.play(rawText, settings, …, editorOffset)`: always
`stop()` first, prepare the text, return if there is nothing to speak, else
start at chunk 0, go to `playing` and dispatch the first chunk. -/
def play (s : Ctrl) (rawText : List Char) (chunkSize editorOffset : Nat) : Ctrl × List Eff :=
  let s1e := stop s
  let p := prepare rawText chunkSize editorOffset
  let s2 := { s1e.1 with prepared := some p }
  if p.chunks.length = 0 then (s2, s1e.2)
  else
    let s3 := { s2 with currentChunk := 0, state := .playing }
    let s4e := speakCurrentChunk s3
    (s4e.1, s1e.2 ++ [.stateChange .playing] ++ s4e.2)

/-- Embeds `PlaybackController.pause()`. -/
def pause (s : Ctrl) : Ctrl × List Eff :=
  if s.state ≠ .playing then (s, [])
  else ({ s with state := .paused }, [.enginePause, .stateChange .paused])

/-- Embeds `PlaybackController.resume()`. -/
def resume (s : Ctrl) : Ctrl × List Eff :=
  if s.state ≠ .paused then (s, [])
  else ({ s with state := .playing }, [.engineResume, .stateChange .playing])

/-- Embeds `PlaybackController.handleBoundary(charIndex, charLength)`: honored only
with a prepared session while playing; converts the chunk-local index to the
global plain offset via `chunkOffsets[currentChunk]`, resolves the editor
range, and — when a range exists — schedules the (rAF-throttled) highlight
with the literal word text cut from the current chunk. -/
def handleBoundary (s : Ctrl) (charIndex charLength : Nat) : Ctrl × List Eff :=
  match s.prepared with
  | none => (s, [])
  | some p =>
    if s.state ≠ .playing then (s, [])
    else
      -- chunkOffset := chunkOffsets[currentChunk] ?? 0; globalPlainFrom :=
      -- chunkOffset + charIndex; globalPlainTo := globalPlainFrom + charLength
      match toEditorRange p.map
          ((p.chunkOffsets.getD s.currentChunk 0 + charIndex : Nat) : Int)
          ((p.chunkOffsets.getD s.currentChunk 0 + charIndex + charLength : Nat) : Int) with
      | none => (s, [])
      | some r =>
        (s, [.scheduleHighlight r
              (sub (p.chunks.getD s.currentChunk []) charIndex (charIndex + charLength))])

end PlaybackController

/-! ### Editor highlight extension (`ttsHighlightField` update on a
`setTTSHighlight` effect) -/

/-- The decoration produced by `ttsHighlightField.update` for an effect value
(`none` models both the `null` clear value and `Decoration.none`; a decoration
is a clamped non-empty range). -/
def ttsHighlightUpdate (docLen : Nat) (value : Option (Int × Int)) : Option (Int × Int) :=
  match value with
  | none => none
  | some (f, t) =>
    let clampedFrom := max 0 (min f (docLen : Int))
    let clampedTo := max clampedFrom (min t (docLen : Int))
    if clampedFrom = clampedTo then none
    else some (clampedFrom, clampedTo)

/-! ### Chunker correctness (concatenation, offsets, window rule) -/

theorem sub_length (s : List Char) (a b : Nat) :
    (sub s a b).length = min (b - a) (s.length - a) := by
  simp [sub, List.length_take, List.length_drop]

theorem sub_append_drop (s : List Char) (a b : Nat) (hab : a ≤ b) :
    sub s a b ++ s.drop b = s.drop a := by
  have hdrop : s.drop b = (s.drop a).drop (b - a) := by
    rw [List.drop_drop]
    congr 1
    omega
  rw [sub, hdrop, List.take_append_drop]

theorem pickSplitSpace_bounds (region : List Char) (maxSize offset : Nat)
    (h1 : 1 ≤ maxSize) (hr : region.length ≤ maxSize) :
    offset < pickSplitSpace region maxSize offset ∧
    pickSplitSpace region maxSize offset ≤ offset + maxSize := by
  unfold pickSplitSpace
  split
  next l hso =>
    have hocc := lastOcc_occurs region [' '] l hso
    have hb := occursAt_bound region [' '] l (by simp) hocc
    simp only [List.length_singleton] at hb
    split <;> omega
  next => omega

theorem pickSplit_bounds (region : List Char) (maxSize offset : Nat)
    (h1 : 1 ≤ maxSize) (hr : region.length ≤ maxSize) :
    offset < pickSplit region maxSize offset ∧
    pickSplit region maxSize offset ≤ offset + maxSize := by
  unfold pickSplit
  split
  next k hso =>
    have hocc := lastOcc_occurs region sentMark k hso
    have hb := occursAt_bound region sentMark k (by simp [sentMark]) hocc
    have hlen : sentMark.length = 2 := rfl
    rw [hlen] at hb
    split
    · omega
    · exact pickSplitSpace_bounds region maxSize offset h1 hr
  next => exact pickSplitSpace_bounds region maxSize offset h1 hr

/-- Combined correctness of the chunking loop: the chunks concatenate to the
remaining text, offsets parallel the chunks, each offset is the running sum of
chunk lengths, every chunk fits in `maxSize`, and each non-final boundary is
the `pickSplit` of its window. -/
theorem splitChunksGo_spec (text : List Char) (maxSize : Nat) (h1 : 1 ≤ maxSize) :
    ∀ (fuel offset : Nat), text.length ≤ offset + fuel →
      (splitChunksGo text maxSize fuel offset).1.flatten = text.drop offset ∧
      (splitChunksGo text maxSize fuel offset).2.length =
        (splitChunksGo text maxSize fuel offset).1.length ∧
      (∀ i, i < (splitChunksGo text maxSize fuel offset).2.length →
        (splitChunksGo text maxSize fuel offset).2.getD i 0 =
          offset + ((((splitChunksGo text maxSize fuel offset).1.take i).map List.length).sum)) ∧
      (∀ c ∈ (splitChunksGo text maxSize fuel offset).1, c.length ≤ maxSize) ∧
      (∀ i, i + 1 < (splitChunksGo text maxSize fuel offset).2.length →
        (splitChunksGo text maxSize fuel offset).2.getD i 0 + maxSize < text.length ∧
        (splitChunksGo text maxSize fuel offset).2.getD (i + 1) 0 =
          pickSplit
            (sub text ((splitChunksGo text maxSize fuel offset).2.getD i 0)
              (min ((splitChunksGo text maxSize fuel offset).2.getD i 0 + maxSize) text.length))
            maxSize ((splitChunksGo text maxSize fuel offset).2.getD i 0)) := by
  intro fuel
  induction fuel with
  | zero =>
    intro offset hf
    have hdrop : text.drop offset = [] := List.drop_eq_nil_of_le (by omega)
    refine ⟨by simp [splitChunksGo, hdrop], by simp [splitChunksGo], ?_, ?_, ?_⟩ <;>
      simp [splitChunksGo]
  | succ fuel ih =>
    intro offset hf
    rw [splitChunksGo]
    by_cases hlt : offset < text.length
    · rw [if_pos hlt]
      by_cases htail : text.length ≤ offset + maxSize
      · rw [if_pos htail]
        refine ⟨by simp [subFrom], by simp, ?_, ?_, ?_⟩
        · intro i hi
          simp only [List.length_singleton] at hi
          interval_cases i
          simp
        · intro c hc
          simp only [List.mem_singleton] at hc
          subst hc
          simp [subFrom]
          omega
        · intro i hi
          simp at hi
      · rw [if_neg htail]
        dsimp only
        set region := sub text offset (min (offset + maxSize) text.length) with hregion
        set splitAt := pickSplit region maxSize offset with hsplit
        have hrlen : region.length ≤ maxSize := by
          rw [hregion, sub_length]
          omega
        have hb := pickSplit_bounds region maxSize offset h1 hrlen
        rw [← hsplit] at hb
        have hsle : splitAt ≤ text.length := by omega
        have hchunklen : (sub text offset splitAt).length = splitAt - offset := by
          rw [sub_length]
          omega
        obtain ⟨ihj, ihl, iho, ihc, ihw⟩ := ih splitAt (by omega)
        refine ⟨?_, ?_, ?_, ?_, ?_⟩
        · simp only [List.flatten_cons, ihj]
          exact sub_append_drop text offset splitAt (by omega)
        · simp [ihl]
        · intro i hi
          match i with
          | 0 => simp
          | i + 1 =>
            simp only [List.getD_cons_succ, List.take_succ_cons, List.map_cons, List.sum_cons,
              List.length_cons] at *
            rw [iho i (by omega), hchunklen]
            omega
        · intro c hc
          simp only [List.mem_cons] at hc
          rcases hc with hc | hc
          · subst hc; omega
          · exact ihc c hc
        · intro i hi
          match i with
          | 0 =>
            simp only [List.getD_cons_zero, List.getD_cons_succ]
            refine ⟨by omega, ?_⟩
            have h0 : (splitChunksGo text maxSize fuel splitAt).2.getD 0 0 = splitAt := by
              have := iho 0 (by simpa using hi)
              simpa using this
            rw [h0]
          | i + 1 =>
            simp only [List.getD_cons_succ, List.length_cons] at *
            exact ihw i (by omega)
    · rw [if_neg hlt]
      have hdrop : text.drop offset = [] := List.drop_eq_nil_of_le (by omega)
      refine ⟨by simp [hdrop], by simp, ?_, ?_, ?_⟩ <;> simp

/-! ### The spec-side window rule (for the refinement claim about chunk
boundaries) -/

/-- Greatest index at which `pat` occurs in `window` (0 when there is none —
always used together with an `occursAt` check). -/
def lastOccSpec (window pat : List Char) : Nat :=
  Nat.findGreatest (fun k => occursAt window pat k = true) window.length

/-- Modelled from the spec: the space fallback of the split rule — "else (2)
the last space, accepted only past `maxChars × 0.3`; else (3) a hard cut
exactly at `maxChars`" — with "last" expressed declaratively as the greatest
occurrence index. -/
def specSpaceLen (window : List Char) (maxChars : Nat) : Nat :=
  if occursAt window [' '] (lastOccSpec window [' ']) = true ∧
      10 * lastOccSpec window [' '] > 3 * maxChars
  then lastOccSpec window [' '] + 1
  else maxChars

/-- Modelled from the spec: the split-point priority rule of §4.3 — "(1) the
last sentence-ending `". "` inside the window, accepted only if it falls past
`maxChars × 0.5`", then the space fallback.  The result is the length of the
produced chunk (the split point relative to the window start; a sentence
match at `k` ends the chunk after the `". "`, i.e. at `k + 2`, a space match
at `l` after the space, i.e. at `l + 1`). -/
def specSplitLen (window : List Char) (maxChars : Nat) : Nat :=
  if occursAt window sentMark (lastOccSpec window sentMark) = true ∧
      2 * lastOccSpec window sentMark > maxChars
  then lastOccSpec window sentMark + 2
  else specSpaceLen window maxChars

theorem findGreatest_of_lastOcc (s pat : List Char) (hne : pat ≠ []) (j : Nat)
    (h : lastOcc s pat = some j) : lastOccSpec s pat = j := by
  rw [lastOccSpec, Nat.findGreatest_eq_iff]
  have hocc := lastOcc_occurs s pat j h
  have hb := occursAt_bound s pat j hne hocc
  refine ⟨by omega, fun _ => hocc, ?_⟩
  intro n hn _
  have := lastOcc_last s pat j hne h n hn
  simp [this]

theorem lastOccSpec_of_lastOcc_none (s pat : List Char) (hne : pat ≠ [])
    (h : lastOcc s pat = none) :
    occursAt s pat (lastOccSpec s pat) = false :=
  lastOcc_none s pat hne h _

theorem pickSplitSpace_eq_spec (region : List Char) (maxSize offset : Nat) :
    pickSplitSpace region maxSize offset = offset + specSpaceLen region maxSize := by
  unfold pickSplitSpace specSpaceLen
  split
  next l hso =>
    have hfg := findGreatest_of_lastOcc region [' '] (by simp) l hso
    have hocc := lastOcc_occurs region [' '] l hso
    rw [hfg, hocc]
    by_cases ht : 10 * l > 3 * maxSize
    · simp [ht]
      omega
    · simp [ht]
  next hso =>
    have hfg0 := lastOccSpec_of_lastOcc_none region [' '] (by simp) hso
    simp [hfg0]

theorem pickSplit_eq_spec (region : List Char) (maxSize offset : Nat) :
    pickSplit region maxSize offset = offset + specSplitLen region maxSize := by
  unfold pickSplit specSplitLen
  split
  next k hso =>
    have hfg := findGreatest_of_lastOcc region sentMark (by simp [sentMark]) k hso
    have hocc := lastOcc_occurs region sentMark k hso
    rw [hfg, hocc]
    by_cases ht : 2 * k > maxSize
    · simp [ht]
      omega
    · simp only [ht, and_false, if_neg, true_and, if_false]
      exact pickSplitSpace_eq_spec region maxSize offset
  next hso =>
    have hfg0 := lastOccSpec_of_lastOcc_none region sentMark (by simp [sentMark]) hso
    rw [hfg0]
    simp only [Bool.false_eq_true, false_and, if_false]
    exact pickSplitSpace_eq_spec region maxSize offset

/-- Umbrella correctness statement for `splitChunks` (positive `maxChars`):
concatenation, offset/partial-sum agreement, the chunk-size bound, the
window rule for every interior boundary, and non-emptiness. -/
theorem splitChunks_spec (text : List Char) (maxChars : Nat) (h1 : 1 ≤ maxChars) :
    (splitChunks text maxChars).1.flatten = text ∧
    (splitChunks text maxChars).2.length = (splitChunks text maxChars).1.length ∧
    (∀ i, i < (splitChunks text maxChars).2.length →
      (splitChunks text maxChars).2.getD i 0 =
        (((splitChunks text maxChars).1.take i).map List.length).sum) ∧
    (∀ c ∈ (splitChunks text maxChars).1, c.length ≤ maxChars) ∧
    (∀ i, i + 1 < (splitChunks text maxChars).2.length →
      (splitChunks text maxChars).2.getD i 0 + maxChars < text.length ∧
      (splitChunks text maxChars).2.getD (i + 1) 0 =
        (splitChunks text maxChars).2.getD i 0 +
          specSplitLen (sub text ((splitChunks text maxChars).2.getD i 0)
            ((splitChunks text maxChars).2.getD i 0 + maxChars)) maxChars) ∧
    (splitChunks text maxChars).1 ≠ [] := by
  unfold splitChunks
  by_cases hle : text.length ≤ maxChars
  · rw [if_pos hle]
    refine ⟨by simp, by simp, ?_, ?_, ?_, by simp⟩
    · intro i hi
      simp only [List.length_singleton] at hi
      interval_cases i
      simp
    · intro c hc
      simp only [List.mem_singleton] at hc
      subst hc
      exact hle
    · intro i hi
      simp at hi
  · rw [if_neg hle]
    obtain ⟨hj, hl, ho, hc, hw⟩ := splitChunksGo_spec text maxChars h1 (text.length + 1) 0 (by omega)
    refine ⟨by simpa using hj, hl, ?_, hc, ?_, ?_⟩
    · intro i hi
      simpa using ho i hi
    · intro i hi
      obtain ⟨hwin, heq⟩ := hw i hi
      refine ⟨hwin, ?_⟩
      rw [heq, pickSplit_eq_spec]
      have hmin : min ((splitChunksGo text maxChars (text.length + 1) 0).2.getD i 0 + maxChars)
          text.length = (splitChunksGo text maxChars (text.length + 1) 0).2.getD i 0 + maxChars := by
        omega
      rw [hmin]
    · intro hnil
      rw [hnil] at hj
      simp only [List.flatten_nil, List.drop_zero] at hj
      have : text.length = 0 := by rw [← hj]; rfl
      omega

/-! ### Correctness of the position-map lookup -/

theorem sorted_getD (map : List PositionMapEntry)
    (hs : map.Chain' (fun a b => a.plain < b.plain)) (j j2 : Nat)
    (hj : j < j2) (hj2 : j2 < map.length) :
    (map.getD j ⟨0, 0⟩).plain < (map.getD j2 ⟨0, 0⟩).plain := by
  have ht : IsTrans PositionMapEntry (fun a b => a.plain < b.plain) :=
    ⟨fun a b c h1 h2 => by omega⟩
  have hp := List.chain'_iff_pairwise.mp hs
  rw [List.pairwise_iff_getElem] at hp
  have hlt := hp j j2 (by omega) hj2 hj
  rw [List.getD_eq_getElem?_getD, List.getD_eq_getElem?_getD,
    List.getElem?_eq_getElem (by omega : j < map.length), List.getElem?_eq_getElem hj2]
  exact hlt

/-- Loop invariant of the binary search: starting from a window whose left
end satisfies `plain ≤ plainIndex`, the result is the greatest index of the
whole map satisfying it (all later entries exceed `plainIndex`). -/
theorem bsearchGo_correct (map : List PositionMapEntry) (pI : Int)
    (hs : map.Chain' (fun a b => a.plain < b.plain)) :
    ∀ (fuel lo hi : Nat), hi < map.length → lo ≤ hi → hi - lo < fuel →
      ((map.getD lo ⟨0, 0⟩).plain : Int) ≤ pI →
      (∀ j, hi < j → j < map.length → pI < ((map.getD j ⟨0, 0⟩).plain : Int)) →
      lo ≤ bsearchGo map pI fuel lo hi ∧ bsearchGo map pI fuel lo hi ≤ hi ∧
      ((map.getD (bsearchGo map pI fuel lo hi) ⟨0, 0⟩).plain : Int) ≤ pI ∧
      (∀ j, bsearchGo map pI fuel lo hi < j → j < map.length →
        pI < ((map.getD j ⟨0, 0⟩).plain : Int)) := by
  intro fuel
  induction fuel with
  | zero => intro lo hi _ _ hfuel _ _; omega
  | succ fuel ih =>
    intro lo hi hhi hlohi hfuel hleft hupper
    rw [bsearchGo]
    by_cases hlt : lo < hi
    · rw [if_pos hlt]
      dsimp only
      by_cases hmid : ((map.getD ((lo + hi + 1) / 2) ⟨0, 0⟩).plain : Int) ≤ pI
      · rw [if_pos hmid]
        exact (ih ((lo + hi + 1) / 2) hi hhi (by omega) (by omega) hmid hupper).imp
          (fun h => by omega) (fun h => h)
      · rw [if_neg hmid]
        have hmid2 : ∀ j, (lo + hi + 1) / 2 - 1 < j → j < map.length →
            pI < ((map.getD j ⟨0, 0⟩).plain : Int) := by
          intro j hj hjlen
          rcases Nat.lt_or_ge ((lo + hi + 1) / 2) j with hj2 | hj2
          · have := sorted_getD map hs ((lo + hi + 1) / 2) j hj2 hjlen
            omega
          · have hjeq : j = (lo + hi + 1) / 2 := by omega
            rw [hjeq]
            omega
        exact (ih lo ((lo + hi + 1) / 2 - 1) (by omega) (by omega) (by omega) hleft hmid2).imp
          (fun h => h) (fun h => h.imp (fun h2 => by omega) (fun h2 => h2))
    · rw [if_neg hlt]
      exact ⟨le_rfl, hlohi, hleft, fun j hj hjlen => hupper j (by omega) hjlen⟩

/-- Correctness of `lookupEditorOffset` on a non-empty strictly-increasing map: clamping
below the first anchor, and otherwise affine extrapolation from the greatest
anchor with `plain ≤ plainIndex`. -/
theorem lookupEditorOffset_spec (map : List PositionMapEntry)
    (hs : map.Chain' (fun a b => a.plain < b.plain)) (hne : map ≠ []) (pI : Int) :
    (pI < ((map.getD 0 ⟨0, 0⟩).plain : Int) →
      lookupEditorOffset map pI = some ((map.getD 0 ⟨0, 0⟩).editor : Int)) ∧
    (((map.getD 0 ⟨0, 0⟩).plain : Int) ≤ pI →
      ∃ j, j < map.length ∧ ((map.getD j ⟨0, 0⟩).plain : Int) ≤ pI ∧
        (∀ j2, j2 < map.length → ((map.getD j2 ⟨0, 0⟩).plain : Int) ≤ pI → j2 ≤ j) ∧
        lookupEditorOffset map pI =
          some (((map.getD j ⟨0, 0⟩).editor : Int) + (pI - ((map.getD j ⟨0, 0⟩).plain : Int)))) := by
  match map, hne with
  | e0 :: rest, _ =>
    constructor
    · intro hfirst
      rw [lookupEditorOffset]
      dsimp only
      rw [if_pos (by simpa using hfirst)]
      simp
    · intro hge
      rw [lookupEditorOffset]
      dsimp only
      rw [if_neg (by simp only [List.getD_cons_zero] at hge; omega)]
      simp only [List.length_cons, Nat.add_sub_cancel]
      by_cases hlast : (((e0 :: rest).getD rest.length ⟨0, 0⟩).plain : Int) ≤ pI
      · rw [if_pos hlast]
        refine ⟨rest.length, by omega, hlast, ?_, rfl⟩
        intro j2 hj2 _
        omega
      · rw [if_neg hlast]
        have hcorrect := bsearchGo_correct (e0 :: rest) pI hs (rest.length + 1) 0
          rest.length (by simp only [List.length_cons]; omega) (by omega) (by omega) (by simpa using hge)
          (by intro j hj hjlen; simp only [List.length_cons] at hjlen; omega)
        obtain ⟨hge0, hlehi, hple, hupper⟩ := hcorrect
        refine ⟨_, by omega, hple, ?_, rfl⟩
        intro j2 hj2 hj2le
        by_contra hcon
        have := hupper j2 (by omega) hj2
        omega

theorem lookupEditorOffset_isSome (map : List PositionMapEntry) (hne : map ≠ []) (pI : Int) :
    ∃ v, lookupEditorOffset map pI = some v := by
  match map, hne with
  | e0 :: rest, _ =>
    rw [lookupEditorOffset]
    dsimp only
    split
    · exact ⟨_, rfl⟩
    · split
      · exact ⟨_, rfl⟩
      · exact ⟨_, rfl⟩

/-- On a non-empty map `toEditorRange` is built from the two lookups at
`plainFrom` and `plainTo − 1`. -/
theorem toEditorRange_spec (map : List PositionMapEntry) (hne : map ≠ [])
    (plainFrom plainTo : Int) :
    ∃ f t, lookupEditorOffset map plainFrom = some f ∧
      lookupEditorOffset map (plainTo - 1) = some t ∧
      toEditorRange map plainFrom plainTo = some ⟨f, t + 1⟩ := by
  obtain ⟨f, hf⟩ := lookupEditorOffset_isSome map hne plainFrom
  obtain ⟨t, ht⟩ := lookupEditorOffset_isSome map hne (plainTo - 1)
  refine ⟨f, t, hf, ht, ?_⟩
  have hlen : map.length ≠ 0 := fun h0 => hne (List.length_eq_zero.mp h0)
  rw [toEditorRange, if_neg hlen, hf, ht]

/-! ### Invariants of the position map built by `stripMarkdown` -/

/-- Invariant of the accumulated scan state: the map's `plain` fields are
strictly increasing, adjacent anchors have distinct (editor − plain) deltas
(the sparseness of the map), and every recorded `plain` is below the running
plain index. -/
def MapInv (st : StripState) : Prop :=
  st.map.Chain' (fun a b => a.plain < b.plain) ∧
  st.map.Chain' (fun a b => (b.editor : Int) - (b.plain : Int) ≠ (a.editor : Int) - (a.plain : Int)) ∧
  ∀ e ∈ st.map, e.plain < st.plainIndex

theorem chain'_append_singleton {α : Type} (R : α → α → Prop) (l : List α) (x : α)
    (hl : l.Chain' R) (hx : ∀ a, l.getLast? = some a → R a x) :
    (l ++ [x]).Chain' R := by
  rw [List.chain'_append]
  refine ⟨hl, List.chain'_singleton x, ?_⟩
  intro a ha y hy
  simp only [List.head?_cons, Option.mem_def, Option.some.injEq] at hy
  subst hy
  exact hx a ha

theorem pushChar_inv (st : StripState) (c : Char) (ed : Nat) (h : MapInv st) :
    MapInv (pushChar st c ed) := by
  obtain ⟨h1, h2, h3⟩ := h
  unfold MapInv pushChar
  cases hl : st.map.getLast? with
  | none =>
    have hm : st.map = [] := List.getLast?_eq_none_iff.mp hl
    simp only [hm, List.nil_append]
    refine ⟨List.chain'_singleton _, List.chain'_singleton _, ?_⟩
    intro e he
    rw [List.mem_singleton] at he
    subst he
    simp
  | some last =>
    have hmem : last ∈ st.map := List.mem_of_mem_getLast? hl
    dsimp only
    split
    next hdelta =>
      refine ⟨?_, ?_, ?_⟩
      · refine chain'_append_singleton _ _ _ h1 ?_
        intro a ha
        rw [hl] at ha
        cases ha
        exact h3 last hmem
      · refine chain'_append_singleton _ _ _ h2 ?_
        intro a ha
        rw [hl] at ha
        cases ha
        show (ed : Int) - (st.plainIndex : Int) ≠ (last.editor : Int) - (last.plain : Int)
        omega
      · intro e he
        rw [List.mem_append, List.mem_singleton] at he
        rcases he with he | he
        · have := h3 e he; omega
        · subst he; simp
    next =>
      refine ⟨h1, h2, ?_⟩
      intro e he
      have := h3 e he
      omega

theorem pushRun_inv (st : StripState) (cs : List Char) (ed : Nat) (h : MapInv st) :
    MapInv (pushRun st cs ed) := by
  induction cs generalizing st ed with
  | nil => simpa [pushRun] using h
  | cons c rest ih =>
    rw [pushRun]
    exact ih (pushChar st c ed) (ed + 1) (pushChar_inv st c ed h)

theorem stripStep_inv (raw : List Char) (eo i : Nat) (ls : Bool) (st : StripState)
    (h : MapInv st) :
    ∀ i2 ls2 st2, stripStep raw eo i ls st = .next i2 ls2 st2 → MapInv st2 := by
  intro i2 ls2 st2 hs
  unfold stripStep at hs
  cases ha : stripAction raw eo i ls with
  | halt => rw [ha] at hs; cases hs
  | skip i3 ls3 =>
    rw [ha] at hs
    simp only [applyAction] at hs
    cases hs
    exact h
  | emit i3 ls3 c ed =>
    rw [ha] at hs
    simp only [applyAction] at hs
    cases hs
    exact pushChar_inv _ _ _ h
  | emitRun i3 ls3 cs ed =>
    rw [ha] at hs
    simp only [applyAction] at hs
    cases hs
    exact pushRun_inv _ _ _ h
  | pipe i3 ed =>
    rw [ha] at hs
    simp only [applyAction] at hs
    cases hs
    split
    · split
      · exact pushChar_inv _ _ _ h
      · exact h
    · exact h

theorem stripGo_inv (raw : List Char) (eo : Nat) :
    ∀ (fuel i : Nat) (ls : Bool) (st : StripState), MapInv st →
      MapInv (stripGo raw eo fuel i ls st) := by
  intro fuel
  induction fuel with
  | zero => intro i ls st h; simpa [stripGo] using h
  | succ fuel ih =>
    intro i ls st h
    rw [stripGo]
    split
    · cases hs : stripStep raw eo i ls st with
      | halt => simp only [hs]; exact h
      | next i2 ls2 st2 =>
        simp only [hs]
        exact ih i2 ls2 st2 (stripStep_inv raw eo i ls st h i2 ls2 st2 hs)
    · exact h

theorem stripMarkdown_inv (raw : List Char) (editorOffset : Nat) :
    (stripMarkdown raw editorOffset).2.Chain' (fun a b => a.plain < b.plain) ∧
    (stripMarkdown raw editorOffset).2.Chain'
      (fun a b => (b.editor : Int) - (b.plain : Int) ≠ (a.editor : Int) - (a.plain : Int)) := by
  have hinit : MapInv ⟨[], [], 0⟩ := ⟨List.chain'_nil, List.chain'_nil, by simp⟩
  unfold stripMarkdown
  cases frontmatterStart raw with
  | none => exact ⟨List.chain'_nil, List.chain'_nil⟩
  | some i0 =>
    have h := stripGo_inv raw editorOffset (raw.length + 1) i0 true ⟨[], [], 0⟩ hinit
    exact ⟨h.1, h.2.1⟩

/-! ### Progress and fuel-sufficiency of the scanner: every loop iteration
strictly advances the scan index, so `stripGo`'s fuel of `raw.length + 1`
computes the full run of the TS while-loop. -/

theorem guardIf_some {α : Type} {c : Prop} [Decidable c] {o : Option α} {x : α}
    (h : (if c then o else none) = some x) : o = some x := by
  split at h
  · exact h
  · cases h

theorem runEndP_gt (s : List Char) (i : Nat) (p : Char → Bool) (h : i < s.length)
    (hp : p (s.getD i ' ') = true) : i < runEndP s i p := by
  rw [runEndP]
  have hdrop : s.drop i = s.getD i ' ' :: s.drop (i + 1) := by
    rw [List.getD_eq_getElem?_getD, List.getElem?_eq_getElem h]
    exact List.drop_eq_getElem_cons h
  rw [hdrop, List.takeWhile_cons, hp]
  simp

theorem imageSpan_lt (raw : List Char) (i : Nat) (z : Nat × Nat)
    (h : imageSpan raw i = some z) : i < z.2 + 1 := by
  rw [imageSpan] at h
  cases hcb : firstOccFrom raw [']'] (i + 2) with
  | none => simp only [hcb] at h; cases h
  | some cb =>
    simp only [hcb] at h
    have h1 := firstOccFrom_ge raw [']'] (i + 2) cb hcb
    by_cases hat : atC raw (cb + 1) '(' = true
    · rw [if_pos hat] at h
      cases hcp : firstOccFrom raw [')'] (cb + 2) with
      | none => simp only [hcp] at h; cases h
      | some cp =>
        simp only [hcp, Option.some.injEq] at h
        have h2 := firstOccFrom_ge raw [')'] (cb + 2) cp hcp
        subst h
        show i < cp + 1
        omega
    · rw [if_neg hat] at h
      cases h

theorem linkSpan_lt (raw : List Char) (i : Nat) (z : Nat × Nat)
    (h : linkSpan raw i = some z) : i < z.2 + 1 := by
  rw [linkSpan] at h
  cases hcb : findClosingBracket raw i with
  | none => simp only [hcb] at h; cases h
  | some cb =>
    simp only [hcb] at h
    have h1 := findClosingBracket_ge raw i cb hcb
    by_cases hat : atC raw (cb + 1) '(' = true
    · rw [if_pos hat] at h
      cases hcp : firstOccFrom raw [')'] (cb + 2) with
      | none => simp only [hcp] at h; cases h
      | some cp =>
        simp only [hcp, Option.some.injEq] at h
        have h2 := firstOccFrom_ge raw [')'] (cb + 2) cp hcp
        subst h
        show i < cp + 1
        omega
    · rw [if_neg hat] at h
      cases h

/-- Progress predicate: the action advances past `i` (halting counts). -/
def actionProgress (i : Nat) : Action → Prop
  | .halt => True
  | .skip i2 _ => i < i2
  | .emit i2 _ _ _ => i < i2
  | .emitRun i2 _ _ _ => i < i2
  | .pipe i2 _ => i < i2

/-- Predicate `actionProgress` lifted to the optional result of the line-start rules. -/
def actionProgressOpt (i : Nat) : Option Action → Prop
  | none => True
  | some a => actionProgress i a

theorem lineStartAction_gt (raw : List Char) (i : Nat) (h : i < raw.length) :
    actionProgressOpt i (lineStartAction raw i) := by
  simp only [lineStartAction]
  repeat' split
  all_goals first
    | trivial
    | (show i < _
       first
         | omega
         | exact nextLineIdx_gt raw i h
         | (unfold runEndP; omega)
         | (rename_i nl hnl
            have h1 := firstOccFrom_ge raw ['\n'] i nl hnl
            have h2 := skipFence_ge raw (raw.getD i ' ') (nl + 1)
            omega))

theorem inlineAction_gt (raw : List Char) (eo i : Nat) (h : i < raw.length) :
    actionProgress i (inlineAction raw eo i) := by
  simp only [inlineAction]
  repeat' split
  all_goals first
    | trivial
    | (show i < _
       first
         | omega
         | exact runEndP_gt raw i _ h (by simp)
         | (unfold runEndP; omega)
         | (rename_i he
            first
              | (have h1 := firstOccFrom_ge _ _ _ _ (guardIf_some he); omega)
              | exact imageSpan_lt _ _ _ (guardIf_some he)
              | exact linkSpan_lt _ _ _ (guardIf_some he))
         | (rename_i he _x
            have h1 := firstOccFrom_ge _ _ _ _ (guardIf_some he)
            omega)
         | (rename_i he _x _y
            have h1 := firstOccFrom_ge _ _ _ _ (guardIf_some he)
            omega)
         | (rename_i he _x _y _z
            have h1 := firstOccFrom_ge _ _ _ _ (guardIf_some he)
            omega))

theorem stripAction_gt (raw : List Char) (eo i : Nat) (ls : Bool) (h : i < raw.length) :
    actionProgress i (stripAction raw eo i ls) := by
  rw [stripAction]
  cases hls : (if ls then lineStartAction raw i else none) with
  | none => exact inlineAction_gt raw eo i h
  | some a =>
    have hp := lineStartAction_gt raw i h
    rw [guardIf_some hls] at hp
    exact hp

theorem stripStep_next_gt (raw : List Char) (eo i : Nat) (ls : Bool) (st : StripState)
    (h : i < raw.length) :
    ∀ i2 ls2 st2, stripStep raw eo i ls st = .next i2 ls2 st2 → i < i2 := by
  intro i2 ls2 st2 hs
  have hp := stripAction_gt raw eo i ls h
  rw [stripStep] at hs
  cases ha : stripAction raw eo i ls with
  | halt => rw [ha] at hs; cases hs
  | skip i3 ls3 => rw [ha] at hs; rw [ha] at hp; cases hs; exact hp
  | emit i3 ls3 c ed => rw [ha] at hs; rw [ha] at hp; cases hs; exact hp
  | emitRun i3 ls3 cs ed => rw [ha] at hs; rw [ha] at hp; cases hs; exact hp
  | pipe i3 ed => rw [ha] at hs; rw [ha] at hp; cases hs; exact hp

/-- The loop result does not depend on the fuel once the fuel covers the
remaining input: with strictly advancing indices, `raw.length - i` iterations
always suffice, so `stripGo` with fuel `raw.length + 1` is the faithful value
of the TS while-loop. -/
theorem stripGo_fuel_stable (raw : List Char) (eo : Nat) :
    ∀ (fuel1 fuel2 i : Nat) (ls : Bool) (st : StripState),
      raw.length ≤ i + fuel1 → raw.length ≤ i + fuel2 →
      stripGo raw eo fuel1 i ls st = stripGo raw eo fuel2 i ls st := by
  intro fuel1
  induction fuel1 with
  | zero =>
    intro fuel2 i ls st h1 h2
    cases fuel2 with
    | zero => rfl
    | succ f2 =>
      rw [stripGo, stripGo]
      rw [if_neg (by omega)]
  | succ f1 ih =>
    intro fuel2 i ls st h1 h2
    cases fuel2 with
    | zero =>
      rw [stripGo, stripGo]
      rw [if_neg (by omega)]
    | succ f2 =>
      rw [stripGo, stripGo]
      by_cases hlt : i < raw.length
      · rw [if_pos hlt, if_pos hlt]
        cases hs : stripStep raw eo i ls st with
        | halt => rfl
        | next i2 ls2 st2 =>
          have hgt := stripStep_next_gt raw eo i ls st hlt i2 ls2 st2 hs
          exact ih f2 i2 ls2 st2 (by omega) (by omega)
      · rw [if_neg hlt, if_neg hlt]

/-! ### Helper facts for the playback state machine -/

theorem stop_state_idle (s : PlaybackController.Ctrl) :
    (PlaybackController.stop s).1.state = .idle := by
  rw [PlaybackController.stop]
  split
  next h => exact h
  next => rfl

theorem prepare_chunks_empty (raw : List Char) (chunkSize editorOffset : Nat)
    (h : (trimJS (stripMarkdown raw editorOffset).1).length = 0) :
    (prepare raw chunkSize editorOffset).chunks = [] := by
  rw [prepare, if_pos h]

theorem prepare_chunks_ne (raw : List Char) (chunkSize editorOffset : Nat)
    (h : (trimJS (stripMarkdown raw editorOffset).1).length ≠ 0) (hcs : 1 ≤ chunkSize) :
    (prepare raw chunkSize editorOffset).chunks =
      (splitChunks (stripMarkdown raw editorOffset).1 chunkSize).1 ∧
    (prepare raw chunkSize editorOffset).chunks ≠ [] := by
  rw [prepare, if_neg h]
  exact ⟨rfl, (splitChunks_spec (stripMarkdown raw editorOffset).1 chunkSize hcs).2.2.2.2.2⟩

/-- Characterization of a successful `highlightWord` call: the guards held,
the cursor advanced past the match, and the match came either from the
forward search or — after a forward miss — from the single backtracked
retry. -/
theorem highlightWord_some (rh : ReadingHighlighter.State) (word : List Char)
    (idx : Nat) (rh2 : ReadingHighlighter.State)
    (h : ReadingHighlighter.highlightWord rh word = (some idx, rh2)) :
    rh.fullText.length ≠ 0 ∧ word.length ≠ 0 ∧
    rh2 = { rh with searchOffset := idx + word.length } ∧
    (firstOccFrom rh.fullText word rh.searchOffset = some idx ∨
      (firstOccFrom rh.fullText word rh.searchOffset = none ∧
        firstOccFrom rh.fullText word
          (rh.searchOffset - ReadingHighlighter.SEARCH_BACKTRACK_CHARS) = some idx)) := by
  rw [ReadingHighlighter.highlightWord] at h
  by_cases hg : (rh.fullText.length = 0 || word.length = 0) = true
  · rw [if_pos hg] at h
    cases h
  · rw [if_neg hg] at h
    simp only [Bool.or_eq_true, decide_eq_true_eq, not_or] at hg
    refine ⟨hg.1, hg.2, ?_⟩
    cases hf : firstOccFrom rh.fullText word rh.searchOffset with
    | some j =>
      rw [hf] at h
      obtain ⟨h1, h2⟩ := Prod.mk.injEq .. ▸ h
      cases h1
      exact ⟨h2.symm, Or.inl rfl⟩
    | none =>
      rw [hf] at h
      cases hb : firstOccFrom rh.fullText word
          (rh.searchOffset - ReadingHighlighter.SEARCH_BACKTRACK_CHARS) with
      | some j =>
        rw [hb] at h
        obtain ⟨h1, h2⟩ := Prod.mk.injEq .. ▸ h
        cases h1
        exact ⟨h2.symm, Or.inr ⟨rfl, rfl⟩⟩
      | none =>
        rw [hb] at h
        cases h

end TTS

/-! ## The claims -/

/-- Claim C1, counterexample: the claimed plain text
`"Title This is bold text."` is not what `prepare` produces for
`"# Title\n\nThis is **bold** text."` — each of the two newlines becomes one
space, so a double space separates `Title` from `This`. -/
theorem claim1_counterexample :
    (TTS.prepare "# Title\n\nThis is **bold** text.".data 1000 0).chunks ≠
      ["Title This is bold text.".data] := by decide

/-- Claim C1, amended: for `"# Title\n\nThis is **bold** text."` and a chunk
size at least as large as the output, `prepare` produces the plain text
`"Title  This is bold text."` (heading and emphasis markers dropped, each
newline turned into one space — hence two spaces for the blank line — result
trimmed), the word `"bold"` sits at plain offset 15, and the position map
sends 15 to source offset 19, the `b` inside `**bold**` (which spans source
offsets 17–24). -/
theorem claim1_amended :
    (TTS.prepare "# Title\n\nThis is **bold** text.".data 1000 0).chunks =
      ["Title  This is bold text.".data] ∧
    TTS.firstOccFrom "Title  This is bold text.".data "bold".data 0 = some 15 ∧
    TTS.lookupEditorOffset
      (TTS.prepare "# Title\n\nThis is **bold** text.".data 1000 0).map 15 = some 19 ∧
    TTS.sub "# Title\n\nThis is **bold** text.".data 17 25 = "**bold**".data ∧
    TTS.sub "# Title\n\nThis is **bold** text.".data 19 23 = "bold".data := by decide

/-- Claim C2: for `"[See [[Note A|here]]](url)"` the plain text contains
`"here"` (at plain offset 13; the link rule copies the bracketed text
verbatim, so the plain text is `"See [[Note A|here]]"`), and the position map
sends the plain offset of its `h` to source offset 14 — the `h` inside the
wikilink's display segment (the wikilink `[[Note A|here]]` spans source
offsets 5–19, its display segment `here` spans 14–17), not to the outer link
brackets (offsets 0 and 20) or the url (offsets 21–25). -/
theorem claim2_wikilink_mapping :
    TTS.firstOccFrom (TTS.stripMarkdown "[See [[Note A|here]]](url)".data 0).1
      "here".data 0 = some 13 ∧
    TTS.lookupEditorOffset (TTS.stripMarkdown "[See [[Note A|here]]](url)".data 0).2 13 =
      some 14 ∧
    TTS.sub "[See [[Note A|here]]](url)".data 14 18 = "here".data ∧
    TTS.sub "[See [[Note A|here]]](url)".data 5 20 = "[[Note A|here]]".data := by decide

/-- Claim C6: for every source text, the position map produced by
`stripMarkdown` is strictly increasing in `plain`, and an anchor is appended
only when the (source − plain) delta changes — adjacent anchors always carry
distinct deltas, never one anchor per emitted character. -/
theorem claim6_map_sparse (raw : List Char) (editorOffset : Nat) :
    (TTS.stripMarkdown raw editorOffset).2.Chain' (fun a b => a.plain < b.plain) ∧
    (TTS.stripMarkdown raw editorOffset).2.Chain'
      (fun a b => (b.editor : Int) - (b.plain : Int) ≠ (a.editor : Int) - (a.plain : Int)) :=
  TTS.stripMarkdown_inv raw editorOffset

/-- Claim C10: the editor highlight field clamps every incoming range to
`[0, docLen]` with `clampedFrom ≤ clampedTo`, and an empty clamped range
produces no decoration — so an out-of-bounds or inverted range never yields
an invalid decoration: whenever a decoration is produced it is exactly the
clamped pair, non-empty and inside the document. -/
theorem claim10_clamp (docLen : Nat) (f t : Int) :
    0 ≤ max 0 (min f (docLen : Int)) ∧
    max 0 (min f (docLen : Int)) ≤ max (max 0 (min f (docLen : Int))) (min t (docLen : Int)) ∧
    max (max 0 (min f (docLen : Int))) (min t (docLen : Int)) ≤ (docLen : Int) ∧
    ((max 0 (min f (docLen : Int)) = max (max 0 (min f (docLen : Int))) (min t (docLen : Int)) ∧
        TTS.ttsHighlightUpdate docLen (some (f, t)) = none) ∨
      (max 0 (min f (docLen : Int)) < max (max 0 (min f (docLen : Int))) (min t (docLen : Int)) ∧
        TTS.ttsHighlightUpdate docLen (some (f, t)) =
          some (max 0 (min f (docLen : Int)),
            max (max 0 (min f (docLen : Int))) (min t (docLen : Int))))) := by
  refine ⟨by omega, by omega, by omega, ?_⟩
  rw [TTS.ttsHighlightUpdate]
  split
  next heq => exact Or.inl ⟨by omega, rfl⟩
  next hne => exact Or.inr ⟨by omega, rfl⟩

/-- Claim C3: for every plain text and positive `maxChars`, the chunks of
`splitChunks` concatenate in order to exactly the input text, and
`chunkOffsets[i]` is the plain-text offset at which chunk `i` begins — the
sum of the lengths of chunks `0..i−1`. -/
theorem claim3_chunks_concat (text : List Char) (maxChars : Nat) (h : 1 ≤ maxChars) :
    (TTS.splitChunks text maxChars).1.flatten = text ∧
    (TTS.splitChunks text maxChars).2.length = (TTS.splitChunks text maxChars).1.length ∧
    ∀ i, i < (TTS.splitChunks text maxChars).2.length →
      (TTS.splitChunks text maxChars).2.getD i 0 =
        (((TTS.splitChunks text maxChars).1.take i).map List.length).sum := by
  obtain ⟨h1, h2, h3, _, _, _⟩ := TTS.splitChunks_spec text maxChars h
  exact ⟨h1, h2, h3⟩

/-- Witness for C3 at `"one two three four five"` with `maxChars = 10`
(chunks `"one two " / "three " / "four five"`, offsets `0 / 8 / 14`). -/
theorem claim3_witness :
    (1 : Nat) ≤ 10 ∧
    (TTS.splitChunks "one two three four five".data 10).1.flatten =
      "one two three four five".data ∧
    (TTS.splitChunks "one two three four five".data 10).2.getD 2 0 =
      (((TTS.splitChunks "one two three four five".data 10).1.take 2).map List.length).sum :=
  ⟨by decide, (claim3_chunks_concat "one two three four five".data 10 (by decide)).1,
    (claim3_chunks_concat "one two three four five".data 10 (by decide)).2.2 2 (by decide)⟩

/-- Claim C4: with positive `maxChars`, a text no longer than `maxChars`
yields exactly one chunk; every chunk except possibly the last fits in
`maxChars`; and every interior chunk boundary is placed by the spec's
priority rule on its window (`specSplitLen`: the last `". "` if it falls past
`maxChars × 0.5`, else the last space if past `maxChars × 0.3`, else a hard
cut exactly at `maxChars` — the integer comparisons `2k > maxChars` and
`10l > 3·maxChars` coincide with the JavaScript float thresholds). -/
theorem claim4_split_rule (text : List Char) (maxChars : Nat) (h : 1 ≤ maxChars) :
    (text.length ≤ maxChars → (TTS.splitChunks text maxChars).1 = [text]) ∧
    (∀ c ∈ (TTS.splitChunks text maxChars).1.dropLast, c.length ≤ maxChars) ∧
    (∀ i, i + 1 < (TTS.splitChunks text maxChars).2.length →
      (TTS.splitChunks text maxChars).2.getD (i + 1) 0 =
        (TTS.splitChunks text maxChars).2.getD i 0 +
          TTS.specSplitLen
            (TTS.sub text ((TTS.splitChunks text maxChars).2.getD i 0)
              ((TTS.splitChunks text maxChars).2.getD i 0 + maxChars)) maxChars) := by
  obtain ⟨_, _, _, hc, hw, _⟩ := TTS.splitChunks_spec text maxChars h
  refine ⟨?_, ?_, fun i hi => (hw i hi).2⟩
  · intro hle
    rw [TTS.splitChunks, if_pos hle]
  · intro c hcmem
    exact hc c ((List.dropLast_sublist _).subset hcmem)

/-- Witness for C4: one-chunk case at `"one two"`, and the first boundary of
`"one two three four five"` with `maxChars = 10` placed by the window rule. -/
theorem claim4_witness :
    (1 : Nat) ≤ 10 ∧
    (TTS.splitChunks "one two".data 10).1 = ["one two".data] ∧
    (TTS.splitChunks "one two three four five".data 10).2.getD (0 + 1) 0 =
      (TTS.splitChunks "one two three four five".data 10).2.getD 0 0 +
        TTS.specSplitLen
          (TTS.sub "one two three four five".data
            ((TTS.splitChunks "one two three four five".data 10).2.getD 0 0)
            ((TTS.splitChunks "one two three four five".data 10).2.getD 0 0 + 10)) 10 :=
  ⟨by decide, (claim4_split_rule "one two".data 10 (by decide)).1 (by decide),
    (claim4_split_rule "one two three four five".data 10 (by decide)).2.2 0 (by decide)⟩

/-- Claim C5: on the empty map `toEditorRange` returns no mapping; on a
non-empty strictly-increasing map, `lookupEditorOffset` clamps indices before
the first anchor to the first anchor's source offset, otherwise extrapolates
affinely from the greatest anchor with `plain ≤ plainIndex`; and
`toEditorRange` returns `{from := lookup plainFrom, to := lookup (plainTo−1) + 1}`. -/
theorem claim5_lookup (map : List TTS.PositionMapEntry)
    (hs : map.Chain' (fun a b => a.plain < b.plain)) (hne : map ≠ [])
    (pI plainFrom plainTo : Int) :
    (∀ pf pt : Int, TTS.toEditorRange [] pf pt = none) ∧
    (pI < ((map.getD 0 ⟨0, 0⟩).plain : Int) →
      TTS.lookupEditorOffset map pI = some ((map.getD 0 ⟨0, 0⟩).editor : Int)) ∧
    (((map.getD 0 ⟨0, 0⟩).plain : Int) ≤ pI →
      ∃ j, j < map.length ∧ ((map.getD j ⟨0, 0⟩).plain : Int) ≤ pI ∧
        (∀ j2, j2 < map.length → ((map.getD j2 ⟨0, 0⟩).plain : Int) ≤ pI → j2 ≤ j) ∧
        TTS.lookupEditorOffset map pI =
          some (((map.getD j ⟨0, 0⟩).editor : Int) + (pI - ((map.getD j ⟨0, 0⟩).plain : Int)))) ∧
    (∃ f t, TTS.lookupEditorOffset map plainFrom = some f ∧
      TTS.lookupEditorOffset map (plainTo - 1) = some t ∧
      TTS.toEditorRange map plainFrom plainTo = some ⟨f, t + 1⟩) := by
  obtain ⟨hc, he⟩ := TTS.lookupEditorOffset_spec map hs hne pI
  exact ⟨fun pf pt => rfl, hc, he, TTS.toEditorRange_spec map hne plainFrom plainTo⟩

/-- Witness for C5 on the concrete map `[{plain 0, editor 2}, {plain 5, editor 9}]`
at `plainIndex 7` and the range `[1, 3)`. -/
theorem claim5_witness :
    ([⟨0, 2⟩, ⟨5, 9⟩] : List TTS.PositionMapEntry).Chain' (fun a b => a.plain < b.plain) ∧
    (((7 : Int)) ≥ (([⟨0, 2⟩, ⟨5, 9⟩] : List TTS.PositionMapEntry).getD 0 ⟨0, 0⟩).plain ∧
      (∃ j, j < ([⟨0, 2⟩, ⟨5, 9⟩] : List TTS.PositionMapEntry).length ∧
        ((([⟨0, 2⟩, ⟨5, 9⟩] : List TTS.PositionMapEntry).getD j ⟨0, 0⟩).plain : Int) ≤ 7 ∧
        (∀ j2, j2 < ([⟨0, 2⟩, ⟨5, 9⟩] : List TTS.PositionMapEntry).length →
          ((([⟨0, 2⟩, ⟨5, 9⟩] : List TTS.PositionMapEntry).getD j2 ⟨0, 0⟩).plain : Int) ≤ 7 →
            j2 ≤ j) ∧
        TTS.lookupEditorOffset ([⟨0, 2⟩, ⟨5, 9⟩] : List TTS.PositionMapEntry) 7 =
          some (((([⟨0, 2⟩, ⟨5, 9⟩] : List TTS.PositionMapEntry).getD j ⟨0, 0⟩).editor : Int) +
            (7 - ((([⟨0, 2⟩, ⟨5, 9⟩] : List TTS.PositionMapEntry).getD j ⟨0, 0⟩).plain : Int))))) ∧
    (∃ f t, TTS.lookupEditorOffset ([⟨0, 2⟩, ⟨5, 9⟩] : List TTS.PositionMapEntry) 1 = some f ∧
      TTS.lookupEditorOffset ([⟨0, 2⟩, ⟨5, 9⟩] : List TTS.PositionMapEntry) (3 - 1) = some t ∧
      TTS.toEditorRange ([⟨0, 2⟩, ⟨5, 9⟩] : List TTS.PositionMapEntry) 1 3 = some ⟨f, t + 1⟩) :=
  ⟨by simp,
    ⟨by decide,
      (claim5_lookup [⟨0, 2⟩, ⟨5, 9⟩] (by simp) (by decide) 7 1 3).2.2.1 (by decide)⟩,
    (claim5_lookup [⟨0, 2⟩, ⟨5, 9⟩] (by simp) (by decide) 7 1 3).2.2.2⟩

/-- Claim C7: the playback state machine.  `stop` is a no-op from idle and
otherwise cancels the backend, clears highlights, goes idle, discards the
session and emits the end notification; `pause` acts only from `playing`;
`resume` only from `paused`; `play` always first forces idle (the stop
effects come first), then — unless the stripped plain text is empty or
whitespace-only, in which case the state stays idle and nothing is spoken —
moves to `playing` at chunk 0 and dispatches the first chunk. -/
theorem claim7_state_machine (s : TTS.PlaybackController.Ctrl) (raw : List Char)
    (chunkSize editorOffset : Nat) :
    (s.state = .idle → TTS.PlaybackController.stop s = (s, [])) ∧
    (s.state ≠ .idle →
      TTS.PlaybackController.stop s =
        ({ s with state := .idle, prepared := none },
         [.engineCancel, .clearHighlight, .stateChange .idle, .emitEnd])) ∧
    (s.state = .playing →
      TTS.PlaybackController.pause s =
        ({ s with state := .paused }, [.enginePause, .stateChange .paused])) ∧
    (s.state ≠ .playing → TTS.PlaybackController.pause s = (s, [])) ∧
    (s.state = .paused →
      TTS.PlaybackController.resume s =
        ({ s with state := .playing }, [.engineResume, .stateChange .playing])) ∧
    (s.state ≠ .paused → TTS.PlaybackController.resume s = (s, [])) ∧
    ((TTS.trimJS (TTS.stripMarkdown raw editorOffset).1).length = 0 →
      (TTS.PlaybackController.play s raw chunkSize editorOffset).1.state = .idle ∧
      (TTS.PlaybackController.play s raw chunkSize editorOffset).2 =
        (TTS.PlaybackController.stop s).2 ∧
      ∀ c, TTS.PlaybackController.Eff.engineSpeak c ∉
        (TTS.PlaybackController.play s raw chunkSize editorOffset).2) ∧
    ((TTS.trimJS (TTS.stripMarkdown raw editorOffset).1).length ≠ 0 → 1 ≤ chunkSize →
      (TTS.PlaybackController.play s raw chunkSize editorOffset).1.state = .playing ∧
      (TTS.PlaybackController.play s raw chunkSize editorOffset).1.currentChunk = 0 ∧
      (TTS.PlaybackController.play s raw chunkSize editorOffset).2 =
        (TTS.PlaybackController.stop s).2 ++
          [.stateChange .playing,
            .engineSpeak
              ((TTS.prepare raw chunkSize editorOffset).chunks.getD 0 [])]) := by
  have hstopeff : (TTS.PlaybackController.stop s).2 = [] ∨
      (TTS.PlaybackController.stop s).2 =
        [.engineCancel, .clearHighlight, .stateChange .idle, .emitEnd] := by
    rw [TTS.PlaybackController.stop]
    split
    · exact Or.inl rfl
    · exact Or.inr rfl
  refine ⟨?_, ?_, ?_, ?_, ?_, ?_, ?_, ?_⟩
  · intro h
    rw [TTS.PlaybackController.stop, if_pos h]
  · intro h
    rw [TTS.PlaybackController.stop, if_neg h]
  · intro h
    rw [TTS.PlaybackController.pause, if_neg (by simp [h])]
  · intro h
    rw [TTS.PlaybackController.pause, if_pos h]
  · intro h
    rw [TTS.PlaybackController.resume, if_neg (by simp [h])]
  · intro h
    rw [TTS.PlaybackController.resume, if_pos h]
  · intro h
    have hchunks := TTS.prepare_chunks_empty raw chunkSize editorOffset h
    rw [TTS.PlaybackController.play]
    simp only [hchunks, List.length_nil, if_pos rfl]
    refine ⟨TTS.stop_state_idle s, rfl, ?_⟩
    intro c hc
    rcases hstopeff with he | he <;> rw [he] at hc <;> simp at hc
  · intro h hcs
    obtain ⟨-, hne⟩ := TTS.prepare_chunks_ne raw chunkSize editorOffset h hcs
    rw [TTS.PlaybackController.play]
    by_cases hz : (TTS.prepare raw chunkSize editorOffset).chunks.length = 0
    · exact absurd (List.length_eq_zero.mp hz) hne
    · rw [if_neg hz]
      unfold TTS.PlaybackController.speakCurrentChunk
      simp only
      by_cases hle : (TTS.prepare raw chunkSize editorOffset).chunks.length ≤ 0
      · exact absurd (List.length_eq_zero.mp (by omega)) hne
      · rw [if_neg hle]
        exact ⟨rfl, rfl, by simp⟩

/-- Witness for C7: resume from paused, pause as a no-op from paused, and a
play call on `"hi"` that ends playing with the stop effects first and the
single chunk dispatched. -/
theorem claim7_witness :
    TTS.PlaybackController.resume ⟨.paused, none, 0⟩ =
      (⟨.playing, none, 0⟩, [.engineResume, .stateChange .playing]) ∧
    TTS.PlaybackController.pause ⟨.paused, none, 0⟩ = (⟨.paused, none, 0⟩, []) ∧
    (TTS.PlaybackController.play ⟨.paused, none, 0⟩ "hi".data 5 0).1.state = .playing ∧
    (TTS.PlaybackController.play ⟨.paused, none, 0⟩ "hi".data 5 0).2 =
      (TTS.PlaybackController.stop ⟨.paused, none, 0⟩).2 ++
        [.stateChange .playing,
          .engineSpeak ((TTS.prepare "hi".data 5 0).chunks.getD 0 [])] := by
  have h := claim7_state_machine ⟨.paused, none, 0⟩ "hi".data 5 0
  exact ⟨h.2.2.2.2.1 rfl, h.2.2.2.1 (by decide),
    (h.2.2.2.2.2.2.2 (by decide) (by decide)).1,
    (h.2.2.2.2.2.2.2 (by decide) (by decide)).2.2⟩

/-- Claim C8: `handleBoundary` never changes the controller state; it is a
no-op unless a session is prepared and the state is `playing`; when honored,
the plain range passed to the source mapping starts at
`chunkOffsets[currentChunk] + localCharIndex`; a mapping miss (no editor
range) skips the highlight with state and chunk index unchanged, and a hit
schedules exactly one highlight carrying the word cut from the current
chunk. -/
theorem claim8_boundary (s : TTS.PlaybackController.Ctrl) (ci cl : Nat) :
    ((TTS.PlaybackController.handleBoundary s ci cl).1 = s) ∧
    (s.state ≠ .playing → TTS.PlaybackController.handleBoundary s ci cl = (s, [])) ∧
    (∀ p, s.prepared = some p → s.state = .playing →
      (TTS.toEditorRange p.map ((p.chunkOffsets.getD s.currentChunk 0 + ci : Nat) : Int)
          ((p.chunkOffsets.getD s.currentChunk 0 + ci + cl : Nat) : Int) = none →
        TTS.PlaybackController.handleBoundary s ci cl = (s, [])) ∧
      (∀ r, TTS.toEditorRange p.map ((p.chunkOffsets.getD s.currentChunk 0 + ci : Nat) : Int)
          ((p.chunkOffsets.getD s.currentChunk 0 + ci + cl : Nat) : Int) = some r →
        TTS.PlaybackController.handleBoundary s ci cl =
          (s, [.scheduleHighlight r
                (TTS.sub (p.chunks.getD s.currentChunk []) ci (ci + cl))]))) := by
  refine ⟨?_, ?_, ?_⟩
  · unfold TTS.PlaybackController.handleBoundary
    split
    · rfl
    · split
      · rfl
      · split
        · rfl
        · rfl
  · intro hns
    unfold TTS.PlaybackController.handleBoundary
    split
    · rfl
    · rw [if_pos hns]
  · intro p hp hplay
    unfold TTS.PlaybackController.handleBoundary
    simp only [hp]
    rw [if_neg (by simp [hplay])]
    constructor
    · intro hnone
      simp only [hnone]
    · intro r hr
      simp only [hr]

/-- Witness for C8: a paused controller ignores the boundary; a playing
session with an empty map skips the highlight; a playing session with the
map `[{plain 0, editor 0}]` schedules the highlight of `"hi"` at `[0, 2)`. -/
theorem claim8_witness :
    TTS.PlaybackController.handleBoundary ⟨.paused, some ⟨["hi".data], [⟨0, 0⟩], [0]⟩, 0⟩ 0 2 =
      (⟨.paused, some ⟨["hi".data], [⟨0, 0⟩], [0]⟩, 0⟩, []) ∧
    TTS.PlaybackController.handleBoundary ⟨.playing, some ⟨["hi".data], [], [0]⟩, 0⟩ 0 2 =
      (⟨.playing, some ⟨["hi".data], [], [0]⟩, 0⟩, []) ∧
    TTS.PlaybackController.handleBoundary ⟨.playing, some ⟨["hi".data], [⟨0, 0⟩], [0]⟩, 0⟩ 0 2 =
      (⟨.playing, some ⟨["hi".data], [⟨0, 0⟩], [0]⟩, 0⟩,
        [.scheduleHighlight ⟨0, 2⟩ "hi".data]) := by
  refine ⟨(claim8_boundary ⟨.paused, some ⟨["hi".data], [⟨0, 0⟩], [0]⟩, 0⟩ 0 2).2.1 (by decide),
    ((claim8_boundary ⟨.playing, some ⟨["hi".data], [], [0]⟩, 0⟩ 0 2).2.2
      ⟨["hi".data], [], [0]⟩ rfl rfl).1 (by decide), ?_⟩
  have h := ((claim8_boundary ⟨.playing, some ⟨["hi".data], [⟨0, 0⟩], [0]⟩, 0⟩ 0 2).2.2
    ⟨["hi".data], [⟨0, 0⟩], [0]⟩ rfl rfl).2 ⟨0, 2⟩ (by decide)
  simpa using h

/-- Claim C9, counterexample: two successive successful `highlightWord` calls
for the same word can resolve to the same buffer position — on the buffer
`"the"`, the first call matches at 0 and advances the cursor to 3; the second
call misses forward, backtracks to `max(0, 3 − 20) = 0`, and matches the same
occurrence at 0 again.  The positions are not strictly increasing. -/
theorem claim9_counterexample :
    (TTS.ReadingHighlighter.highlightWord ⟨0, "the".data⟩ "the".data).1 = some 0 ∧
    (TTS.ReadingHighlighter.highlightWord ⟨0, "the".data⟩ "the".data).2 =
      ⟨3, "the".data⟩ ∧
    (TTS.ReadingHighlighter.highlightWord ⟨3, "the".data⟩ "the".data).1 = some 0 := by
  decide

/-- Claim C9, amended: within one session the cursor advances to match
position + word length after every match; a match found by the *forward*
search resolves strictly beyond the previous match (so repeated words advance
through the buffer as long as the forward search succeeds); and on a forward
miss exactly one retry is performed from `max(0, cursor − 20)` — which may
re-match a position before the cursor, including the previous occurrence
itself. -/
theorem claim9_amended (rh : TTS.ReadingHighlighter.State) (word : List Char) :
    (∀ idx rh2, TTS.ReadingHighlighter.highlightWord rh word = (some idx, rh2) →
      rh2.searchOffset = idx + word.length ∧ rh2.fullText = rh.fullText) ∧
    (∀ idx rh2 idx2 rh3,
      TTS.ReadingHighlighter.highlightWord rh word = (some idx, rh2) →
      TTS.firstOccFrom rh2.fullText word rh2.searchOffset ≠ none →
      TTS.ReadingHighlighter.highlightWord rh2 word = (some idx2, rh3) →
      idx + word.length ≤ idx2) ∧
    (rh.fullText.length ≠ 0 → word.length ≠ 0 →
      TTS.firstOccFrom rh.fullText word rh.searchOffset = none →
      TTS.ReadingHighlighter.highlightWord rh word =
        (match TTS.firstOccFrom rh.fullText word
            (rh.searchOffset - TTS.ReadingHighlighter.SEARCH_BACKTRACK_CHARS) with
          | some idx => (some idx, { rh with searchOffset := idx + word.length })
          | none => (none, rh))) := by
  refine ⟨?_, ?_, ?_⟩
  · intro idx rh2 h
    obtain ⟨-, -, hrh2, -⟩ := TTS.highlightWord_some rh word idx rh2 h
    rw [hrh2]
    exact ⟨rfl, rfl⟩
  · intro idx rh2 idx2 rh3 h1 hfwd h2
    obtain ⟨-, -, hrh2, -⟩ := TTS.highlightWord_some rh word idx rh2 h1
    obtain ⟨-, -, -, hcase⟩ := TTS.highlightWord_some rh2 word idx2 rh3 h2
    cases hocc : TTS.firstOccFrom rh2.fullText word rh2.searchOffset with
    | none => exact absurd hocc hfwd
    | some j =>
      have hj : j = idx2 := by
        rcases hcase with hc | ⟨hc, -⟩
        · rw [hocc] at hc; cases hc; rfl
        · rw [hocc] at hc; cases hc
      have hge := TTS.firstOccFrom_ge rh2.fullText word rh2.searchOffset j hocc
      have hge2 : idx + word.length ≤ j := by rw [hrh2] at hge; exact hge
      omega
  · intro hft hw hfwd
    rw [TTS.ReadingHighlighter.highlightWord,
      if_neg (by simp only [Bool.or_eq_true, decide_eq_true_eq]; omega), hfwd]

/-- Witness for C9 (amended): on the buffer `"a a"` with word `"a"`, the first
call matches at 0 with the cursor advanced to 1; the forward search then
succeeds at 2, so the second match lands at `0 + 1 ≤ 2`; and on the buffer
`"aa"` with the cursor already at 2, the forward miss triggers the single
backtracked retry. -/
theorem claim9_witness :
    ((TTS.ReadingHighlighter.highlightWord ⟨0, "a a".data⟩ "a".data).2.searchOffset =
      0 + "a".data.length ∧
      (TTS.ReadingHighlighter.highlightWord ⟨0, "a a".data⟩ "a".data).2.fullText =
        "a a".data) ∧
    0 + "a".data.length ≤ 2 ∧
    TTS.ReadingHighlighter.highlightWord ⟨2, "aa".data⟩ "a".data =
      (match TTS.firstOccFrom "aa".data "a".data
          (2 - TTS.ReadingHighlighter.SEARCH_BACKTRACK_CHARS) with
        | some idx => (some idx, { searchOffset := idx + "a".data.length, fullText := "aa".data })
        | none => (none, ⟨2, "aa".data⟩)) :=
  ⟨(claim9_amended ⟨0, "a a".data⟩ "a".data).1 0 ⟨1, "a a".data⟩ (by decide),
    (claim9_amended ⟨0, "a a".data⟩ "a".data).2.1 0 ⟨1, "a a".data⟩ 2 ⟨3, "a a".data⟩
      (by decide) (by decide) (by decide),
    (claim9_amended ⟨2, "aa".data⟩ "a".data).2.2 (by decide) (by decide) (by decide)⟩
